import Mathlib

/-!
Verification of the per-frame pipeline of `gsplat.c` / `gsplat.h` / `main.c`
(a software Gaussian-splat renderer): splat store, EWA projection, depth
sort (two-pass byte-wise stable counting sort on a quantised 16-bit key),
and the fully fixed-point tile rasterizer with its flush to the surface.

Modelling conventions:
* machine integers are `Nat`/`Int`; every C conversion or overflowing
  operation is made explicit (`wrap32` for `(int32_t)` casts, `% 2^16`
  for `(uint16_t)` casts, `toInt16` for `(int16_t)` casts);
* `float` arithmetic (projection, depth quantisation) is modelled as exact
  rational arithmetic; `sqrtf` is a parameter `sqrtQ : ℚ → ℚ` of the
  projector (for a negative argument the C code produces NaN and the
  splat is culled by the source's self-inequality test; theorems that
  need it assume `sqrtQ` is nonnegative, which covers the NaN-free runs);
* arrays written in place are modelled as functions `Nat → _`; the static
  scratch arrays of `sort_splats` (`keys`, `buf_idx`) and the persistent
  `tile_buf` are threaded explicitly as inputs so that the determinism
  claim is about something real.
-/

namespace Cubed

/-! ### Byte digits of the 16-bit sort key (`keys[i] & 0xFF`, `(keys[i] >> 8) & 0xFF`). -/

def byteLow (k : Nat) : Nat := k % 256

def byteHigh (k : Nat) : Nat := (k / 256) % 256

theorem byteLow_lt (k : Nat) : byteLow k < 256 := Nat.mod_lt _ (by norm_num)

theorem byteHigh_lt (k : Nat) : byteHigh k < 256 := Nat.mod_lt _ (by norm_num)

theorem key_decomp {k : Nat} (h : k < 65536) : k = 256 * byteHigh k + byteLow k := by
  unfold byteHigh byteLow; omega

/-! ### One counting-sort pass of `sort_splats` (gsplat.c:499-523).

A pass over an index list `l` with digit function `g`:
histogram (`count[g v]++`), exclusive prefix sums
(`offset[0]=0; offset[b]=offset[b-1]+count[b-1]`), then the scatter
`out[offset[g v]++] = v`.  The output array `out` starts from the residual
contents `out0` of the static scratch buffer. -/

def histo (g : Nat → Nat) (l : List Nat) : Nat → Nat :=
  l.foldl (fun cnt v => fun b => if b = g v then cnt b + 1 else cnt b) (fun _ => 0)

/-- Number of elements of `l` whose digit is `b` (the denotation of the histogram). -/
def dcount (g : Nat → Nat) (l : List Nat) (b : Nat) : Nat :=
  (l.filter (fun v => g v = b)).length

def offsets (cnt : Nat → Nat) : Nat → Nat
  | 0 => 0
  | b + 1 => offsets cnt b + cnt b

structure ScatterState where
  off : Nat → Nat
  out : Nat → Nat

/-- `k = g v; out[off[k]++] = v` (one iteration of the scatter loop). -/
def scatterStep (g : Nat → Nat) (st : ScatterState) (v : Nat) : ScatterState :=
  { off := fun b => if b = g v then st.off (g v) + 1 else st.off b
    out := fun p => if p = st.off (g v) then v else st.out p }

/-- One full counting-sort pass: positions `0..l.length-1` of the output buffer. -/
def countingPass (g : Nat → Nat) (out0 : Nat → Nat) (l : List Nat) : List Nat :=
  let st := l.foldl (scatterStep g) { off := offsets (histo g l), out := out0 }
  (List.range l.length).map st.out

theorem histo_aux (g : Nat → Nat) :
    ∀ (l : List Nat) (acc : Nat → Nat) (b : Nat),
      (l.foldl (fun cnt v => fun b => if b = g v then cnt b + 1 else cnt b) acc) b
        = acc b + dcount g l b := by
  intro l
  induction l with
  | nil => intro acc b; simp [dcount]
  | cons v t ih =>
    intro acc b
    simp only [List.foldl_cons, ih, dcount, List.filter_cons]
    by_cases h : b = g v
    · simp [h, eq_comm, dcount]
      omega
    · simp [h, eq_comm, dcount]

theorem histo_eq (g : Nat → Nat) (l : List Nat) : histo g l = dcount g l := by
  funext b
  simpa using histo_aux g l (fun _ => 0) b

theorem dcount_append (g : Nat → Nat) (l₁ l₂ : List Nat) (b : Nat) :
    dcount g (l₁ ++ l₂) b = dcount g l₁ b + dcount g l₂ b := by
  simp [dcount, List.filter_append]

theorem dcount_singleton (g : Nat → Nat) (v b : Nat) :
    dcount g [v] b = if g v = b then 1 else 0 := by
  by_cases h : g v = b <;> simp [dcount, h]

theorem dcount_le_of_sublist {g : Nat → Nat} {l₁ l₂ : List Nat} (h : List.Sublist l₁ l₂) (b : Nat) :
    dcount g l₁ b ≤ dcount g l₂ b :=
  List.Sublist.length_le (h.filter _)

theorem offsets_le (c : Nat → Nat) {b b' : Nat} (h : b ≤ b') : offsets c b ≤ offsets c b' := by
  induction b' with
  | zero => obtain rfl := Nat.le_zero.mp h; exact le_refl _
  | succ n ih =>
    rcases Nat.le_succ_iff.mp h with h' | h'
    · exact le_trans (ih h') (Nat.le_add_right _ _)
    · exact h' ▸ le_refl _

theorem offsets_add_le (c : Nat → Nat) {b b' : Nat} (h : b < b') :
    offsets c b + c b ≤ offsets c b' :=
  offsets_le c h

theorem getD_append_lt {l₁ l₂ : List Nat} {n : Nat} (d : Nat) (h : n < l₁.length) :
    (l₁ ++ l₂).getD n d = l₁.getD n d := by
  simp [List.getD_eq_getElem?_getD, List.getElem?_append_left h]

theorem getD_append_len {l₁ : List Nat} (v d : Nat) :
    (l₁ ++ [v]).getD l₁.length d = v := by
  simp [List.getD_eq_getElem?_getD, List.getElem?_append_right (le_refl l₁.length)]

/-- Invariant of the scatter loop: after scattering a prefix `p` of `l`, the
running offset of each bucket has advanced by the number of `p`-elements in the
bucket, and the output positions written so far hold the `p`-elements of each
bucket in their input order.  This is the standard counting-sort invariant. -/
theorem scatter_inv (g : Nat → Nat) (l : List Nat) (out0 : Nat → Nat) :
    ∀ p : List Nat, p <+: l →
      (∀ b, (p.foldl (scatterStep g) ⟨offsets (dcount g l), out0⟩).off b
          = offsets (dcount g l) b + dcount g p b)
      ∧ (∀ b m, m < dcount g p b →
          (p.foldl (scatterStep g) ⟨offsets (dcount g l), out0⟩).out
              (offsets (dcount g l) b + m)
            = (p.filter (fun v => g v = b)).getD m 0) := by
  intro p
  induction p using List.reverseRecOn with
  | nil =>
    intro _
    refine ⟨fun b => by simp [dcount], fun b m hm => by simp [dcount] at hm⟩
  | append_singleton q v ih =>
    intro hpre
    have hq : q <+: l := (List.prefix_append q [v]).trans hpre
    obtain ⟨ihoff, ihout⟩ := ih hq
    have hcv : dcount g q (g v) + 1 ≤ dcount g l (g v) := by
      have h1 := dcount_le_of_sublist (g := g) hpre.sublist (g v)
      rw [dcount_append, dcount_singleton] at h1
      simpa using h1
    have hfold : ∀ st : ScatterState,
        (q ++ [v]).foldl (scatterStep g) st = scatterStep g (q.foldl (scatterStep g) st) v := by
      intro st; simp [List.foldl_append]
    constructor
    · intro b
      rw [hfold, dcount_append, dcount_singleton]
      by_cases hb : b = g v
      · subst hb
        simp [scatterStep, ihoff]
        omega
      · have : ¬ g v = b := fun h => hb h.symm
        simp [scatterStep, hb, this, ihoff]
    · intro b m hm
      rw [dcount_append, dcount_singleton] at hm
      rw [hfold, List.filter_append]
      by_cases hb : b = g v
      · subst hb
        have hm1 : m < dcount g q (g v) + 1 := by simpa using hm
        have hfv : [v].filter (fun x => g x = g v) = [v] := by simp
        rw [hfv]
        rcases Nat.lt_succ_iff_lt_or_eq.mp hm1 with hlt | heq
        · have hne : offsets (dcount g l) (g v) + m
              ≠ (q.foldl (scatterStep g) ⟨offsets (dcount g l), out0⟩).off (g v) := by
            rw [ihoff]; omega
          simp only [scatterStep, if_neg hne]
          rw [ihout (g v) m hlt, getD_append_lt]
          exact hlt
        · have hpos : offsets (dcount g l) (g v) + m
              = (q.foldl (scatterStep g) ⟨offsets (dcount g l), out0⟩).off (g v) := by
            rw [ihoff, heq]
          simp only [scatterStep, if_pos hpos]
          subst heq
          exact (getD_append_len v 0).symm
      · have hgvb : ¬ g v = b := fun h => hb h.symm
        have hm' : m < dcount g q b := by
          simpa [hgvb] using hm
        have hmb : dcount g q b ≤ dcount g l b := dcount_le_of_sublist hq.sublist b
        have hne : offsets (dcount g l) b + m
            ≠ (q.foldl (scatterStep g) ⟨offsets (dcount g l), out0⟩).off (g v) := by
          rw [ihoff]
          rcases Nat.lt_or_lt_of_ne hb with hlt | hlt
          · have h1 := offsets_add_le (dcount g l) hlt
            omega
          · have h1 := offsets_add_le (dcount g l) hlt
            omega
        simp only [scatterStep, if_neg hne]
        rw [ihout b m hm']
        have : [v].filter (fun v => g v = b) = [] := by simp [hgvb]
        rw [this, List.append_nil]

/-- Number of elements of `l` whose digit is below `B`. -/
def dcountLT (g : Nat → Nat) (l : List Nat) (B : Nat) : Nat :=
  (l.filter (fun v => g v < B)).length

theorem dcountLT_succ (g : Nat → Nat) (l : List Nat) (B : Nat) :
    dcountLT g l (B + 1) = dcountLT g l B + dcount g l B := by
  induction l with
  | nil => simp [dcountLT, dcount]
  | cons v t ih =>
    simp only [dcountLT, dcount, List.filter_cons] at *
    by_cases h1 : g v < B
    · simp [h1, Nat.lt_succ_of_lt h1, Nat.ne_of_lt h1, ih]
      omega
    · by_cases h2 : g v = B
      · simp [h2, h1, Nat.lt_succ_of_le (le_of_eq h2.symm), ih]
        omega
      · have : ¬ g v < B + 1 := by omega
        simp [h1, h2, this, ih]

theorem offsets_eq_dcountLT (g : Nat → Nat) (l : List Nat) :
    ∀ B, offsets (dcount g l) B = dcountLT g l B := by
  intro B
  induction B with
  | zero => simp [offsets, dcountLT]
  | succ n ih => rw [offsets, ih, dcountLT_succ]

theorem dcountLT_full (g : Nat → Nat) (l : List Nat) {B : Nat}
    (hg : ∀ v ∈ l, g v < B) : dcountLT g l B = l.length := by
  unfold dcountLT
  rw [List.filter_eq_self.mpr (fun a ha => by simpa using hg a ha)]

/-- The buckets of a counting-sort pass: for each digit value in increasing
order, the input elements carrying that digit, in input order. -/
def buckets (g : Nat → Nat) (l : List Nat) : List (List Nat) :=
  (List.range 256).map fun b => l.filter fun v => g v = b

/-- A counting-sort pass is exactly the concatenation of its buckets in digit
order (independently of the residual contents `out0` of the output buffer). -/
theorem countingPass_eq_buckets (g : Nat → Nat) (out0 : Nat → Nat) (l : List Nat)
    (hg : ∀ v ∈ l, g v < 256) :
    countingPass g out0 l = (buckets g l).flatten := by
  have hout := (scatter_inv g l out0 l (List.prefix_refl l)).2
  have hrange : ∀ B : Nat,
      (List.range (offsets (dcount g l) B)).map
          (l.foldl (scatterStep g) ⟨offsets (dcount g l), out0⟩).out
        = ((List.range B).map fun b => l.filter fun v => g v = b).flatten := by
    intro B
    induction B with
    | zero => simp [offsets]
    | succ n ih =>
      rw [offsets, List.range_add, List.map_append, ih, List.range_succ,
        List.map_append, List.flatten_append, List.map_map]
      congr 1
      simp only [List.map_cons, List.map_nil, List.flatten_cons, List.flatten_nil,
        List.append_nil]
      apply List.ext_getElem
      · simp [dcount]
      · intro m h1 h2
        have hm : m < dcount g l n := by simpa using h1
        have := hout n m hm
        simp only [List.getElem_map, List.getElem_range, Function.comp]
        rw [this]
        simp [List.getD_eq_getElem?_getD, List.getElem?_eq_getElem h2]
  have hlen : l.length = offsets (dcount g l) 256 := by
    rw [offsets_eq_dcountLT, dcountLT_full g l hg]
  unfold countingPass buckets
  rw [histo_eq, hlen]
  exact hrange 256

theorem count_filter_eq (g : Nat → Nat) (l : List Nat) (a b : Nat) :
    List.count a (l.filter fun v => g v = b)
      = if g a = b then List.count a l else 0 := by
  by_cases h : g a = b
  · rw [if_pos h]
    exact List.count_filter (by simpa using h)
  · rw [if_neg h]
    refine List.count_eq_zero.mpr fun hmem => ?_
    have := (List.mem_filter.mp hmem).2
    simp at this
    exact h this

theorem sum_range_ite (k c : Nat) :
    ∀ n, k < n → ((List.range n).map fun b => if k = b then c else 0).sum = c := by
  intro n
  induction n with
  | zero => omega
  | succ n ih =>
    intro hk
    rw [List.range_succ, List.map_append, List.sum_append]
    rcases Nat.lt_succ_iff_lt_or_eq.mp hk with h | h
    · simp [ih h, Nat.ne_of_lt h]
    · subst h
      have hz : ((List.range k).map fun b => if k = b then c else 0).sum = 0 := by
        apply List.sum_eq_zero
        intro x hx
        obtain ⟨b, hb, rfl⟩ := List.mem_map.mp hx
        have : k ≠ b := Nat.ne_of_gt (List.mem_range.mp hb)
        simp [this]
      simp [hz]

/-- The bucket concatenation is a permutation of the input list. -/
theorem buckets_flatten_perm (g : Nat → Nat) (l : List Nat)
    (hg : ∀ v ∈ l, g v < 256) : ((buckets g l).flatten).Perm l := by
  rw [List.perm_iff_count]
  intro a
  rw [List.count_flatten]
  unfold buckets
  rw [List.map_map]
  by_cases ha : a ∈ l
  · have : ((List.range 256).map (List.count a ∘ fun b => l.filter fun v => g v = b))
        = (List.range 256).map fun b => if g a = b then List.count a l else 0 := by
      apply List.map_congr_left
      intro b _
      simp only [Function.comp]
      exact count_filter_eq g l a b
    rw [this, sum_range_ite (g a) (List.count a l) 256 (hg a ha)]
  · have hz : ∀ b : Nat, List.count a (l.filter fun v => g v = b) = 0 := fun b =>
      List.count_eq_zero.mpr fun hmem => ha (List.mem_of_mem_filter hmem)
    have : ((List.range 256).map (List.count a ∘ fun b => l.filter fun v => g v = b))
        = (List.range 256).map fun _ => 0 := by
      apply List.map_congr_left
      intro b _
      simpa [Function.comp] using hz b
    rw [this, List.count_eq_zero.mpr ha]
    exact List.sum_eq_zero fun x hx => by
      obtain ⟨b, hb, rfl⟩ := List.mem_map.mp hx
      rfl

/-- P1 core: one counting-sort pass permutes its input. -/
theorem countingPass_perm (g : Nat → Nat) (out0 : Nat → Nat) (l : List Nat)
    (hg : ∀ v ∈ l, g v < 256) : (countingPass g out0 l).Perm l := by
  rw [countingPass_eq_buckets g out0 l hg]
  exact buckets_flatten_perm g l hg

theorem flatten_range_ite (k : Nat) (l : List Nat) :
    ∀ n, k < n →
      (((List.range n).map fun b => if k = b then l else ([] : List Nat)).flatten) = l := by
  intro n
  induction n with
  | zero => omega
  | succ n ih =>
    intro hk
    rw [List.range_succ, List.map_append, List.flatten_append]
    rcases Nat.lt_succ_iff_lt_or_eq.mp hk with h | h
    · simp [ih h, Nat.ne_of_lt h]
    · subst h
      have hz : ((List.range k).map fun b => if k = b then l else ([] : List Nat)) =
          (List.range k).map fun _ => ([] : List Nat) := by
        apply List.map_congr_left
        intro b hb
        have : k ≠ b := Nat.ne_of_gt (List.mem_range.mp hb)
        simp [this]
      simp [hz]

/-- A pass over elements that all carry the same digit returns the list
unchanged (used for the all-equal-depth stability property). -/
theorem countingPass_const (g : Nat → Nat) (out0 : Nat → Nat) (l : List Nat) (k : Nat)
    (hk : k < 256) (h : ∀ v ∈ l, g v = k) : countingPass g out0 l = l := by
  rw [countingPass_eq_buckets g out0 l (fun v hv => (h v hv) ▸ hk)]
  unfold buckets
  have : (List.range 256).map (fun b => l.filter fun v => g v = b)
      = (List.range 256).map fun b => if k = b then l else ([] : List Nat) := by
    apply List.map_congr_left
    intro b _
    by_cases hb : k = b
    · subst hb
      rw [if_pos rfl]
      exact List.filter_eq_self.mpr fun a ha => by simpa using h a ha
    · rw [if_neg hb]
      exact List.filter_eq_nil_iff.mpr fun a ha => by
        simp only [decide_eq_true_eq]
        rw [h a ha]
        exact hb
  rw [this, flatten_range_ite k l 256 hk]

/-- Stability of one pass: two elements with the same digit keep their
relative order. -/
theorem countingPass_stable (g : Nat → Nat) (out0 : Nat → Nat) (l : List Nat)
    (i j : Nat) (hg : ∀ v ∈ l, g v < 256) (hij : g i = g j)
    (hsub : List.Sublist [i, j] l) : List.Sublist [i, j] (countingPass g out0 l) := by
  rw [countingPass_eq_buckets g out0 l hg]
  have hi : i ∈ l := hsub.subset (by simp)
  have hfil : [i, j].filter (fun v => g v = g i) = [i, j] := by
    simp [hij]
  have h2 : List.Sublist [i, j] (l.filter fun v => g v = g i) := by
    rw [← hfil]
    exact hsub.filter _
  refine h2.trans (List.sublist_flatten_of_mem ?_)
  unfold buckets
  exact List.mem_map.mpr ⟨g i, List.mem_range.mpr (hg i hi), rfl⟩

/-- A pass leaves the output sorted (non-strictly) by the digit. -/
theorem countingPass_pairwise (g : Nat → Nat) (out0 : Nat → Nat) (l : List Nat)
    (hg : ∀ v ∈ l, g v < 256) :
    (countingPass g out0 l).Pairwise fun a b => g a ≤ g b := by
  rw [countingPass_eq_buckets g out0 l hg, List.pairwise_flatten]
  constructor
  · intro bl hbl
    obtain ⟨b, _, rfl⟩ := List.mem_map.mp hbl
    apply List.pairwise_of_forall_mem_list
    intro x hx y hy
    have hx' := (List.mem_filter.mp hx).2
    have hy' := (List.mem_filter.mp hy).2
    simp only [decide_eq_true_eq] at hx' hy'
    rw [hx', hy']
  · unfold buckets
    rw [List.pairwise_map]
    refine (List.pairwise_lt_range 256).imp ?_
    intro b b' hbb x hx y hy
    have hx' := (List.mem_filter.mp hx).2
    have hy' := (List.mem_filter.mp hy).2
    simp only [decide_eq_true_eq] at hx' hy'
    omega

/-- LSD two-pass radix sort over 16-bit keys leaves the output sorted by the
full key: within equal high bytes the stable second pass preserves pass 1's
low-byte order, and across different high bytes the high byte dominates. -/
theorem radix2_pairwise (K : Nat → Nat) (out1 out2 : Nat → Nat) (l : List Nat)
    (hK : ∀ v, K v < 65536) :
    (countingPass (fun v => byteHigh (K v)) out2
        (countingPass (fun v => byteLow (K v)) out1 l)).Pairwise
      fun a b => K a ≤ K b := by
  have h1 : (countingPass (fun v => byteLow (K v)) out1 l).Pairwise
      fun a b => byteLow (K a) ≤ byteLow (K b) :=
    countingPass_pairwise _ out1 l fun v _ => byteLow_lt _
  set l1 := countingPass (fun v => byteLow (K v)) out1 l with hl1
  rw [countingPass_eq_buckets _ out2 l1 (fun v _ => byteHigh_lt _), List.pairwise_flatten]
  constructor
  · intro bl hbl
    unfold buckets at hbl
    obtain ⟨b, _, rfl⟩ := List.mem_map.mp hbl
    have hp : (l1.filter fun v => byteHigh (K v) = b).Pairwise
        fun a c => byteLow (K a) ≤ byteLow (K c) := h1.filter _
    refine hp.imp_of_mem ?_
    intro x y hx hy hlow
    have hxb : byteHigh (K x) = b := by simpa using (List.mem_filter.mp hx).2
    have hyb : byteHigh (K y) = b := by simpa using (List.mem_filter.mp hy).2
    have d1 := key_decomp (hK x)
    have d2 := key_decomp (hK y)
    omega
  · unfold buckets
    rw [List.pairwise_map]
    refine (List.pairwise_lt_range 256).imp ?_
    intro b b' hbb x hx y hy
    have hxb : byteHigh (K x) = b := by simpa using (List.mem_filter.mp hx).2
    have hyb : byteHigh (K y) = b' := by simpa using (List.mem_filter.mp hy).2
    have d1 := key_decomp (hK x)
    have d2 := key_decomp (hK y)
    have lx := byteLow_lt (K x)
    omega

/-! ### Depth quantisation of `sort_splats` (gsplat.c:472-497).

The source scans the float depths for `(dmin, dmax)` over non-culled splats
(`d < 1e20f`), widens a too-small range to `1.0f`, and quantises each
non-culled depth with `65535 - (uint16_t)((d - dmin) * scale)`; culled splats
get key 0.  Floats are modelled as exact rationals; the `(uint16_t)` cast of
the in-range nonnegative value is truncation, i.e. the floor. -/

def CULL_DEPTH : ℚ := 10 ^ 20

def SENTINEL : ℚ := 10 ^ 30

def dminOf (l : List ℚ) : ℚ :=
  l.foldl (fun a d => if d < CULL_DEPTH then (if d < a then d else a) else a) SENTINEL

def dmaxOf (l : List ℚ) : ℚ :=
  l.foldl (fun a d => if d < CULL_DEPTH then (if a < d then d else a) else a) 0

def rangeOf (l : List ℚ) : ℚ :=
  if dmaxOf l - dminOf l < 1 / 1000000 then 1 else dmaxOf l - dminOf l

def scaleOf (l : List ℚ) : ℚ := 65535 / rangeOf l

/-- The quantised value `(uint16_t)((d - dmin) * scale)` of a non-culled depth. -/
def qVal (l : List ℚ) (d : ℚ) : Nat := (⌊(d - dminOf l) * scaleOf l⌋).toNat

/-- The 16-bit sort key of splat `i` (gsplat.c:490-497): culled splats
(`d >= 1e20f`) get key 0, the rest `65535 - (uint16_t)((d - dmin)*scale)`. -/
def quantKeys (l : List ℚ) (i : Nat) : Nat :=
  if CULL_DEPTH ≤ l.getD i 0 then 0 else 65535 - qVal l (l.getD i 0)

theorem quantKeys_le (l : List ℚ) (i : Nat) : quantKeys l i ≤ 65535 := by
  unfold quantKeys
  split
  · exact Nat.zero_le _
  · omega

theorem quantKeys_lt (l : List ℚ) (i : Nat) : quantKeys l i < 65536 :=
  Nat.lt_succ_of_le (quantKeys_le l i)

theorem dminOf_le (l : List ℚ) : ∀ d ∈ l, d < CULL_DEPTH → dminOf l ≤ d := by
  suffices h : ∀ (l : List ℚ) (a : ℚ),
      (l.foldl (fun a d => if d < CULL_DEPTH then (if d < a then d else a) else a) a ≤ a)
      ∧ ∀ d ∈ l, d < CULL_DEPTH →
          l.foldl (fun a d => if d < CULL_DEPTH then (if d < a then d else a) else a) a ≤ d by
    intro d hd hcull
    exact (h l SENTINEL).2 d hd hcull
  intro l
  induction l with
  | nil => intro a; exact ⟨le_refl a, fun d hd => absurd hd (List.not_mem_nil d)⟩
  | cons v t ih =>
    intro a
    constructor
    · refine le_trans (ih _).1 ?_
      show (if v < CULL_DEPTH then (if v < a then v else a) else a) ≤ a
      by_cases h1 : v < CULL_DEPTH <;> by_cases h2 : v < a <;>
        simp [h1, h2, le_of_lt]
    · intro d hd hcull
      rcases List.mem_cons.mp hd with rfl | hmem
      · refine le_trans (ih _).1 ?_
        show (if d < CULL_DEPTH then (if d < a then d else a) else a) ≤ d
        rw [if_pos hcull]
        by_cases h2 : d < a
        · simp [h2]
        · simp [h2, le_of_not_lt h2]
      · exact (ih _).2 d hmem hcull

theorem le_dmaxOf (l : List ℚ) : ∀ d ∈ l, d < CULL_DEPTH → d ≤ dmaxOf l := by
  suffices h : ∀ (l : List ℚ) (a : ℚ),
      (a ≤ l.foldl (fun a d => if d < CULL_DEPTH then (if a < d then d else a) else a) a)
      ∧ ∀ d ∈ l, d < CULL_DEPTH →
          d ≤ l.foldl (fun a d => if d < CULL_DEPTH then (if a < d then d else a) else a) a by
    intro d hd hcull
    exact (h l 0).2 d hd hcull
  intro l
  induction l with
  | nil => intro a; exact ⟨le_refl a, fun d hd => absurd hd (List.not_mem_nil d)⟩
  | cons v t ih =>
    intro a
    constructor
    · refine le_trans ?_ (ih _).1
      show a ≤ (if v < CULL_DEPTH then (if a < v then v else a) else a)
      by_cases h1 : v < CULL_DEPTH <;> by_cases h2 : a < v <;>
        simp [h1, h2, le_of_lt]
    · intro d hd hcull
      rcases List.mem_cons.mp hd with rfl | hmem
      · refine le_trans ?_ (ih _).1
        show d ≤ (if d < CULL_DEPTH then (if a < d then d else a) else a)
        rw [if_pos hcull]
        by_cases h2 : a < d
        · simp [h2]
        · simp [h2, le_of_not_lt h2]
      · exact (ih _).2 d hmem hcull

theorem rangeOf_pos (l : List ℚ) : 0 < rangeOf l := by
  unfold rangeOf
  split
  · norm_num
  · have : ¬ dmaxOf l - dminOf l < 1 / 1000000 := by assumption
    linarith [le_of_not_lt this]

theorem scaleOf_pos (l : List ℚ) : 0 < scaleOf l := by
  unfold scaleOf
  exact div_pos (by norm_num) (rangeOf_pos l)

/-- In exact arithmetic the quantised value of an in-range depth never
exceeds 65535 (the `(uint16_t)` cast is in range). -/
theorem qVal_le (l : List ℚ) (d : ℚ) (hd : d ∈ l) (hcull : d < CULL_DEPTH) :
    qVal l d ≤ 65535 := by
  unfold qVal
  have hmin := dminOf_le l d hd hcull
  have hmax := le_dmaxOf l d hd hcull
  have hle : (d - dminOf l) * scaleOf l ≤ 65535 := by
    unfold scaleOf rangeOf
    by_cases hr : dmaxOf l - dminOf l < 1 / 1000000
    · rw [if_pos hr]
      nlinarith
    · rw [if_neg hr]
      have h1 : (1 : ℚ) / 1000000 ≤ dmaxOf l - dminOf l := le_of_not_lt hr
      have h2 : (0 : ℚ) < dmaxOf l - dminOf l := by linarith
      have h3 : d - dminOf l ≤ dmaxOf l - dminOf l := by linarith
      have h4 : (d - dminOf l) / (dmaxOf l - dminOf l) ≤ 1 := (div_le_one h2).mpr h3
      have h5 : (d - dminOf l) * (65535 / (dmaxOf l - dminOf l))
          = (d - dminOf l) / (dmaxOf l - dminOf l) * 65535 := by ring
      rw [h5]
      nlinarith [h4]
  have hfl : ⌊(d - dminOf l) * scaleOf l⌋ ≤ ⌊(65535 : ℚ)⌋ := Int.floor_mono hle
  have h65 : ⌊(65535 : ℚ)⌋ = 65535 := by norm_num
  omega

/-- The quantised value is monotone in the depth. -/
theorem qVal_mono (l : List ℚ) {d d' : ℚ} (h : d ≤ d') : qVal l d ≤ qVal l d' := by
  unfold qVal
  have hs := scaleOf_pos l
  have : (d - dminOf l) * scaleOf l ≤ (d' - dminOf l) * scaleOf l := by nlinarith
  have := Int.floor_le_floor this
  omega

/-! ### `sort_splats` (gsplat.c:467-524). -/

/-- `sort_splats`: two stable counting-sort passes (low byte then high byte)
over the quantised depth keys, starting from the identity index array
`sort_idx[i] = i`.  The scratch output buffers are taken all-zero here;
`sort_splats_scratch` threads arbitrary residual contents and is proved
equal, so nothing depends on this choice. -/
def sort_splats (depths : List ℚ) : List Nat :=
  countingPass (fun v => byteHigh (quantKeys depths v)) (fun _ => 0)
    (countingPass (fun v => byteLow (quantKeys depths v)) (fun _ => 0)
      (List.range depths.length))

/-- `sort_splats` with the residual contents of the static scratch arrays made
explicit: `keys0 i` is what the static `keys[i]` holds for `i ≥ n` (the loop
only writes `keys[0..n-1]`), and `buf0` / `idx0` are the residual contents of
the two scatter output buffers (`buf_idx`, `sort_idx`). -/
def sort_splats_scratch (keys0 buf0 idx0 : Nat → Nat) (depths : List ℚ) : List Nat :=
  let n := depths.length
  let keysA : Nat → Nat := fun i => if i < n then quantKeys depths i else keys0 i
  countingPass (fun v => byteHigh (keysA v)) idx0
    (countingPass (fun v => byteLow (keysA v)) buf0 (List.range n))

/-- Two passes with digit functions that agree on the input elements (and any
residual output-buffer contents) compute the same list. -/
theorem countingPass_congr (g1 g2 : Nat → Nat) (o1 o2 : Nat → Nat) (l : List Nat)
    (hg : ∀ v ∈ l, g1 v = g2 v) (h1 : ∀ v ∈ l, g1 v < 256) :
    countingPass g1 o1 l = countingPass g2 o2 l := by
  rw [countingPass_eq_buckets g1 o1 l h1,
    countingPass_eq_buckets g2 o2 l fun v hv => hg v hv ▸ h1 v hv]
  unfold buckets
  congr 1
  apply List.map_congr_left
  intro b _
  exact List.filter_congr fun v hv => by simp [hg v hv]

/-- The sort result does not depend on the residual contents of the static
scratch buffers: `keys[i]` is written for every live index before it is read,
and (by the permutation property) every output slot `0..n-1` of each scatter
pass is written before pass 2 / the rasterizer reads it. -/
theorem sort_splats_scratch_eq (keys0 buf0 idx0 : Nat → Nat) (depths : List ℚ) :
    sort_splats_scratch keys0 buf0 idx0 depths = sort_splats depths := by
  unfold sort_splats_scratch sort_splats
  have hmem1 : ∀ v ∈ List.range depths.length,
      (if v < depths.length then quantKeys depths v else keys0 v) = quantKeys depths v :=
    fun v hv => if_pos (List.mem_range.mp hv)
  have e1 : countingPass
        (fun v => byteLow (if v < depths.length then quantKeys depths v else keys0 v))
        buf0 (List.range depths.length)
      = countingPass (fun v => byteLow (quantKeys depths v)) (fun _ => 0)
        (List.range depths.length) :=
    countingPass_congr _ _ _ _ _ (fun v hv => by rw [hmem1 v hv]) fun v _ => byteLow_lt _
  simp only []
  rw [e1]
  apply countingPass_congr
  · intro v hv
    have hperm := countingPass_perm (fun v => byteLow (quantKeys depths v)) (fun _ => 0)
      (List.range depths.length) fun v _ => byteLow_lt _
    have : v ∈ List.range depths.length := hperm.mem_iff.mp hv
    rw [hmem1 v this]
  · intro v _
    exact byteHigh_lt _

theorem sort_splats_perm_range (depths : List ℚ) :
    (sort_splats depths).Perm (List.range depths.length) := by
  unfold sort_splats
  have h1 := countingPass_perm (fun v => byteLow (quantKeys depths v)) (fun _ => 0)
    (List.range depths.length) fun v _ => byteLow_lt _
  have h2 := countingPass_perm (fun v => byteHigh (quantKeys depths v)) (fun _ => 0)
    (countingPass (fun v => byteLow (quantKeys depths v)) (fun _ => 0)
      (List.range depths.length)) fun v _ => byteHigh_lt _
  exact h2.trans h1

/-- C1 (P1): after `sort_splats` on a store of `N` splats, the index array is
a permutation of `{0..N-1}` — every input index appears exactly once. -/
theorem sort_splats_is_perm (depths : List ℚ) :
    (sort_splats depths).Perm (List.range depths.length) :=
  sort_splats_perm_range depths

theorem sort_splats_mem_lt (depths : List ℚ) {v : Nat} (hv : v ∈ sort_splats depths) :
    v < depths.length :=
  List.mem_range.mp ((sort_splats_perm_range depths).mem_iff.mp hv)

theorem sort_splats_length (depths : List ℚ) :
    (sort_splats depths).length = depths.length := by
  rw [(sort_splats_perm_range depths).length_eq, List.length_range]

/-- The output of `sort_splats` is sorted (non-strictly, ascending) by the
quantised 16-bit key. -/
theorem sort_splats_pairwise_key (depths : List ℚ) :
    (sort_splats depths).Pairwise
      fun a b => quantKeys depths a ≤ quantKeys depths b := by
  unfold sort_splats
  exact radix2_pairwise (quantKeys depths) _ _ _ fun v => quantKeys_lt depths v

theorem getD_mem_of_lt {l : List ℚ} {i : Nat} (h : i < l.length) : l.getD i 0 ∈ l := by
  have he : l.getD i 0 = l[i] := by
    simp [List.getD_eq_getElem?_getD, List.getElem?_eq_getElem h]
  rw [he]
  exact List.getElem_mem h

theorem getD_eq_getElem_nat {l : List Nat} {i : Nat} (h : i < l.length) (d : Nat) :
    l.getD i d = l[i] := by
  simp [List.getD_eq_getElem?_getD, List.getElem?_eq_getElem h]

/-- C2 amended: along the permutation produced by `sort_splats`,
(1) for adjacent entries whose splats both have non-sentinel depths, either
the depths are non-increasing (`depth[perm[i]] ≥ depth[perm[i+1]]`) or the
two depths quantise to the same 16-bit key — the `≥` of the original claim
can fail only on such quantisation ties; and
(2) every culled entry (sentinel depth) appears at the *beginning* of the
permutation, before every non-culled entry with a nonzero key — not at the
end as the original claim states: culled splats get key 0 and both
counting-sort passes order ascending by key, so key 0 comes first. -/
theorem sort_order_amended (depths : List ℚ) :
    (∀ i : Nat, i + 1 < (sort_splats depths).length →
        depths.getD ((sort_splats depths).getD i 0) 0 < CULL_DEPTH →
        depths.getD ((sort_splats depths).getD (i + 1) 0) 0 < CULL_DEPTH →
        depths.getD ((sort_splats depths).getD (i + 1) 0) 0
            ≤ depths.getD ((sort_splats depths).getD i 0) 0
          ∨ quantKeys depths ((sort_splats depths).getD i 0)
              = quantKeys depths ((sort_splats depths).getD (i + 1) 0))
    ∧ ∀ i j : Nat, i < (sort_splats depths).length →
        j < (sort_splats depths).length →
        CULL_DEPTH ≤ depths.getD ((sort_splats depths).getD i 0) 0 →
        depths.getD ((sort_splats depths).getD j 0) 0 < CULL_DEPTH →
        quantKeys depths ((sort_splats depths).getD j 0) ≠ 0 →
        i < j := by
  have hpw : ∀ i j : Nat, i < (sort_splats depths).length →
      j < (sort_splats depths).length → i < j →
      quantKeys depths ((sort_splats depths).getD i 0)
        ≤ quantKeys depths ((sort_splats depths).getD j 0) := by
    intro i j hi hj hij
    have h := (List.pairwise_iff_getElem.mp (sort_splats_pairwise_key depths)) i j hi hj hij
    rw [getD_eq_getElem_nat hi, getD_eq_getElem_nat hj]
    exact h
  have hmem : ∀ i : Nat, i < (sort_splats depths).length →
      (sort_splats depths).getD i 0 < depths.length := by
    intro i hi
    rw [getD_eq_getElem_nat hi]
    exact sort_splats_mem_lt depths (List.getElem_mem hi)
  constructor
  · intro i h1 hdi hdi1
    have hi : i < (sort_splats depths).length := by omega
    have hK := hpw i (i + 1) hi h1 (by omega)
    have hai := hmem i hi
    have hbi := hmem (i + 1) h1
    have hKa : quantKeys depths ((sort_splats depths).getD i 0)
        = 65535 - qVal depths (depths.getD ((sort_splats depths).getD i 0) 0) := by
      unfold quantKeys
      rw [if_neg (not_le.mpr hdi)]
    have hKb : quantKeys depths ((sort_splats depths).getD (i + 1) 0)
        = 65535 - qVal depths (depths.getD ((sort_splats depths).getD (i + 1) 0) 0) := by
      unfold quantKeys
      rw [if_neg (not_le.mpr hdi1)]
    have hqa := qVal_le depths _ (getD_mem_of_lt hai) hdi
    have hqb := qVal_le depths _ (getD_mem_of_lt hbi) hdi1
    by_cases hdd : depths.getD ((sort_splats depths).getD (i + 1) 0) 0
        ≤ depths.getD ((sort_splats depths).getD i 0) 0
    · exact Or.inl hdd
    · right
      have hlt : depths.getD ((sort_splats depths).getD i 0) 0
          ≤ depths.getD ((sort_splats depths).getD (i + 1) 0) 0 :=
        le_of_lt (lt_of_not_le hdd)
      have hmono := qVal_mono depths hlt
      have h1 : qVal depths (depths.getD ((sort_splats depths).getD (i + 1) 0) 0)
          ≤ qVal depths (depths.getD ((sort_splats depths).getD i 0) 0) := by
        rw [hKa, hKb] at hK
        omega
      have h2 := le_antisymm hmono h1
      rw [hKa, hKb, h2]
  · intro i j hi hj hci hcj hkj
    have hKi0 : quantKeys depths ((sort_splats depths).getD i 0) = 0 := by
      unfold quantKeys
      rw [if_pos hci]
    rcases Nat.lt_trichotomy i j with h | h | h
    · exact h
    · subst h
      exact absurd hci (not_le.mpr hcj)
    · have hK := hpw j i hj hi h
      rw [hKi0] at hK
      exact absurd (Nat.le_zero.mp hK) hkj

/-- C4 (P3 + stability): if all depths are equal (non-sentinel) the
permutation is the identity `(0, 1, ..., N-1)`, and in general entries whose
quantised 16-bit keys are equal keep their input order (first-in stays
first), because both counting-sort passes are stable. -/
theorem sort_splats_stability (depths : List ℚ) :
    ((∃ c : ℚ, c < CULL_DEPTH ∧ ∀ d ∈ depths, d = c) →
        sort_splats depths = List.range depths.length)
    ∧ ∀ i j : Nat, i < j → j < depths.length →
        quantKeys depths i = quantKeys depths j →
        List.Sublist [i, j] (sort_splats depths) := by
  constructor
  · rintro ⟨c, hc, hall⟩
    have hdep : ∀ v : Nat, v < depths.length → depths.getD v 0 = c :=
      fun v hv => hall _ (getD_mem_of_lt hv)
    have hkey : ∀ v ∈ List.range depths.length,
        quantKeys depths v = quantKeys depths 0 := by
      intro v hv
      have hv' := List.mem_range.mp hv
      have h0 : 0 < depths.length := by omega
      unfold quantKeys
      rw [hdep v hv', hdep 0 h0]
    unfold sort_splats
    have e1 : countingPass (fun v => byteLow (quantKeys depths v)) (fun _ => 0)
        (List.range depths.length) = List.range depths.length :=
      countingPass_const _ _ _ (byteLow (quantKeys depths 0)) (byteLow_lt _)
        fun v hv => by rw [hkey v hv]
    rw [e1]
    exact countingPass_const _ _ _ (byteHigh (quantKeys depths 0)) (byteHigh_lt _)
      fun v hv => by rw [hkey v hv]
  · intro i j hij hj hkeq
    have hsub0 : List.Sublist [i, j] (List.range depths.length) := by
      have h1 : List.Sublist [i] (List.range j) :=
        List.singleton_sublist.mpr (List.mem_range.mpr hij)
      have h2 : List.Sublist ([i] ++ [j]) (List.range j ++ [j]) :=
        h1.append (List.Sublist.refl [j])
      have h3 : List.range (j + 1) = List.range j ++ [j] := List.range_succ j
      have h4 : List.Sublist (List.range (j + 1)) (List.range depths.length) :=
        List.range_sublist.mpr hj
      exact (h3.symm ▸ h2).trans h4
    have hlow : byteLow (quantKeys depths i) = byteLow (quantKeys depths j) := by
      rw [hkeq]
    have hhigh : byteHigh (quantKeys depths i) = byteHigh (quantKeys depths j) := by
      rw [hkeq]
    unfold sort_splats
    have s1 := countingPass_stable (fun v => byteLow (quantKeys depths v)) (fun _ => 0)
      (List.range depths.length) i j (fun v _ => byteLow_lt _) hlow hsub0
    exact countingPass_stable _ (fun _ => 0) _ i j (fun v _ => byteHigh_lt _) hhigh s1

/-- The sort depends on the rational depths only through the quantised keys;
with a concrete key table the remaining computation is pure `Nat`. -/
theorem sort_splats_eq_keys (depths : List ℚ) (K : Nat → Nat)
    (hK : ∀ i, i < depths.length → quantKeys depths i = K i) :
    sort_splats depths
      = countingPass (fun v => byteHigh (K v)) (fun _ => 0)
          (countingPass (fun v => byteLow (K v)) (fun _ => 0)
            (List.range depths.length)) := by
  unfold sort_splats
  have e1 : countingPass (fun v => byteLow (quantKeys depths v)) (fun _ => 0)
      (List.range depths.length)
      = countingPass (fun v => byteLow (K v)) (fun _ => 0) (List.range depths.length) :=
    countingPass_congr _ _ _ _ _
      (fun v hv => by rw [hK v (List.mem_range.mp hv)]) fun v _ => byteLow_lt _
  rw [e1]
  apply countingPass_congr
  · intro v hv
    have hperm := countingPass_perm (fun v => byteLow (K v)) (fun _ => 0)
      (List.range depths.length) fun v _ => byteLow_lt _
    rw [hK v (List.mem_range.mp (hperm.mem_iff.mp hv))]
  · intro v _
    exact byteHigh_lt _

set_option maxRecDepth 10000 in
/-- C2 counterexample, refuting both clauses of the original claim.
(1) Culled position: for depths `[1e30, 5, 10]` (splat 0 culled, splats 1
and 2 visible) the permutation is `[0, 2, 1]`: the culled splat sits at
position 0, *before* both non-culled splats, refuting "every culled splat
appears at the end of the permutation, after all non-culled splats".
(2) Depth order: for the non-sentinel depths `[0, 1e-9]` both depths
quantise to the same 16-bit key 65535 (the range collapses below `1e-6`
and `(uint16_t)(1e-9 * 65535) = 0`), so the stable sort returns the
identity permutation `[0, 1]` — and `depth[perm[1]] = 1e-9 > 0 =
depth[perm[0]]` refutes "`depth[perm[i]] >= depth[perm[i+1]]`" for
adjacent non-culled entries: the `≥` clause fails exactly on such
quantisation ties. -/
theorem sort_order_counterexample :
    (sort_splats [SENTINEL, 5, 10] = [0, 2, 1]
      ∧ ¬ (∀ i j : Nat, i < (sort_splats [SENTINEL, 5, 10]).length →
            j < (sort_splats [SENTINEL, 5, 10]).length →
            CULL_DEPTH ≤ ([SENTINEL, 5, 10] : List ℚ).getD
                ((sort_splats [SENTINEL, 5, 10]).getD i 0) 0 →
            ([SENTINEL, 5, 10] : List ℚ).getD
                ((sort_splats [SENTINEL, 5, 10]).getD j 0) 0 < CULL_DEPTH →
            j < i))
    ∧ (sort_splats [0, 1 / 1000000000] = [0, 1]
      ∧ ([0, 1 / 1000000000] : List ℚ).getD
          ((sort_splats [0, 1 / 1000000000]).getD 0 0) 0 < CULL_DEPTH
      ∧ ([0, 1 / 1000000000] : List ℚ).getD
          ((sort_splats [0, 1 / 1000000000]).getD (0 + 1) 0) 0 < CULL_DEPTH
      ∧ ¬ (([0, 1 / 1000000000] : List ℚ).getD
              ((sort_splats [0, 1 / 1000000000]).getD (0 + 1) 0) 0
            ≤ ([0, 1 / 1000000000] : List ℚ).getD
              ((sort_splats [0, 1 / 1000000000]).getD 0 0) 0)) := by
  have hK : ∀ i, i < ([SENTINEL, 5, 10] : List ℚ).length →
      quantKeys [SENTINEL, 5, 10] i = [0, 65535, 0].getD i 0 := by
    intro i hi
    simp only [List.length_cons, List.length_nil] at hi
    interval_cases i
    · norm_num [quantKeys, CULL_DEPTH, SENTINEL]
    · norm_num [quantKeys, qVal, dminOf, dmaxOf, scaleOf, rangeOf, CULL_DEPTH, SENTINEL]
    · norm_num [quantKeys, qVal, dminOf, dmaxOf, scaleOf, rangeOf, CULL_DEPTH, SENTINEL]
  have hval : sort_splats [SENTINEL, 5, 10] = [0, 2, 1] := by
    rw [sort_splats_eq_keys [SENTINEL, 5, 10] (fun i => [0, 65535, 0].getD i 0) hK]
    decide
  have hK2 : ∀ i, i < ([0, 1 / 1000000000] : List ℚ).length →
      quantKeys [0, 1 / 1000000000] i = [65535, 65535].getD i 0 := by
    intro i hi
    simp only [List.length_cons, List.length_nil] at hi
    interval_cases i
    · norm_num [quantKeys, qVal, dminOf, dmaxOf, scaleOf, rangeOf, CULL_DEPTH, SENTINEL]
    · norm_num [quantKeys, qVal, dminOf, dmaxOf, scaleOf, rangeOf, CULL_DEPTH, SENTINEL]
  have hval2 : sort_splats [0, 1 / 1000000000] = [0, 1] := by
    rw [sort_splats_eq_keys [0, 1 / 1000000000] (fun i => [65535, 65535].getD i 0) hK2]
    decide
  refine ⟨⟨hval, fun h => ?_⟩, hval2, ?_, ?_, ?_⟩
  · have h2 := h 0 1 (by rw [hval]; norm_num) (by rw [hval]; norm_num)
      (by rw [hval]; norm_num [SENTINEL, CULL_DEPTH])
      (by rw [hval]; norm_num [CULL_DEPTH])
    omega
  · rw [hval2]
    norm_num [CULL_DEPTH]
  · rw [hval2]
    simp only [List.getD_eq_getElem?_getD, List.getElem?_cons_succ, List.getElem?_cons_zero]
    norm_num [CULL_DEPTH]
  · rw [hval2]
    simp only [List.getD_eq_getElem?_getD, List.getElem?_cons_succ, List.getElem?_cons_zero]
    norm_num

theorem sort_order_amended_witness :
    ([5, 3] : List ℚ).getD ((sort_splats [5, 3]).getD (0 + 1) 0) 0
        ≤ ([5, 3] : List ℚ).getD ((sort_splats [5, 3]).getD 0 0) 0
      ∨ quantKeys [5, 3] ((sort_splats [5, 3]).getD 0 0)
          = quantKeys [5, 3] ((sort_splats [5, 3]).getD (0 + 1) 0) := by
  have hd : ∀ x : Nat, ([5, 3] : List ℚ).getD x 0 < CULL_DEPTH := by
    intro x
    rcases x with _ | x
    · norm_num [CULL_DEPTH]
    · rcases x with _ | x
      · norm_num [CULL_DEPTH]
      · simp only [List.getD_eq_getElem?_getD, List.getElem?_cons_succ, List.getElem?_nil]
        norm_num [CULL_DEPTH]
  exact (sort_order_amended [5, 3]).1 0
    (by rw [sort_splats_length]; norm_num) (hd _) (hd _)

theorem sort_splats_stability_witness :
    sort_splats [(3 : ℚ), 3] = List.range 2
    ∧ List.Sublist [0, 1] (sort_splats [(3 : ℚ), 3]) := by
  have hall : ∀ d ∈ ([(3 : ℚ), 3] : List ℚ), d = 3 := by
    intro d hd
    rcases List.mem_cons.mp hd with rfl | hd
    · rfl
    · rcases List.mem_cons.mp hd with rfl | hd
      · rfl
      · exact absurd hd (List.not_mem_nil d)
  have hkeq : quantKeys [(3 : ℚ), 3] 0 = quantKeys [(3 : ℚ), 3] 1 := by
    simp [quantKeys]
  refine ⟨?_, (sort_splats_stability [(3 : ℚ), 3]).2 0 1 (by norm_num) (by norm_num) hkeq⟩
  have h1 := (sort_splats_stability [(3 : ℚ), 3]).1
    ⟨3, by norm_num [CULL_DEPTH], hall⟩
  simpa using h1

/-! ### Data model (gsplat.h:27-94).

Positions/covariances are `float` in the source, modelled as exact `ℚ`;
color/opacity are `uint8_t`, modelled as `Nat`; the fixed-point fields of
`splat_2d_t` hold the numeric values of the stored `int32_t`/`uint16_t`/
`int16_t` machine words. -/

structure Splat3D where
  x : ℚ
  y : ℚ
  z : ℚ
  cov0 : ℚ
  cov1 : ℚ
  cov2 : ℚ
  cov3 : ℚ
  cov4 : ℚ
  cov5 : ℚ
  r : Nat
  g : Nat
  b : Nat
  alpha : Nat
  deriving DecidableEq

structure Splat2D where
  sx_fp : Int
  sy_fp : Int
  depth : ℚ
  cov_a_fp : Nat
  cov_c_fp : Nat
  cov_b2_fp : Int
  r : Nat
  g : Nat
  b : Nat
  opacity : Nat
  bbox_x0 : Int
  bbox_y0 : Int
  bbox_x1 : Int
  bbox_y1 : Int
  deriving DecidableEq

structure Camera where
  view : Nat → ℚ
  fx : ℚ
  fy : ℚ
  cx : ℚ
  cy : ℚ

/-! ### C integer conversions. -/

/-- `(int32_t)` cast: wrap to the signed 32-bit range. -/
def wrap32 (z : Int) : Int := (z + 2 ^ 31) % 2 ^ 32 - 2 ^ 31

/-- `(int16_t)` cast: wrap to the signed 16-bit range. -/
def toInt16 (z : Int) : Int := (z + 2 ^ 15) % 2 ^ 16 - 2 ^ 15

/-- `(uint16_t)` cast of an integer value: reduce mod 2^16. -/
def u16cast (z : Int) : Nat := (z % 2 ^ 16).toNat

/-- C float-to-integer conversion truncates toward zero. -/
def ratTrunc (q : ℚ) : Int := if q < 0 then ⌈q⌉ else ⌊q⌋

/-! ### EWA projection (gsplat.c:325-457). -/

def camX (cam : Camera) (s : Splat3D) : ℚ :=
  cam.view 0 * s.x + cam.view 4 * s.y + cam.view 8 * s.z + cam.view 12

def camY (cam : Camera) (s : Splat3D) : ℚ :=
  cam.view 1 * s.x + cam.view 5 * s.y + cam.view 9 * s.z + cam.view 13

def camZ (cam : Camera) (s : Splat3D) : ℚ :=
  cam.view 2 * s.x + cam.view 6 * s.y + cam.view 10 * s.z + cam.view 14

/-- The projected 2x2 covariance `(ca, cb, cc)` of gsplat.c:353-393,
including the `+0.3` low-pass regulariser on the diagonal.  `J`'s rows are
`[fx*iz, 0, fx*cx*iz²]` and `[0, fy*iz, fy*cy*iz²]`; `R` is the upper-left
3x3 of the column-major view matrix; the products with `J`'s literal zero
entries are dropped from the sums. -/
def cov2d (cam : Camera) (s : Splat3D) : ℚ × ℚ × ℚ :=
  let m := cam.view
  let cz := camZ cam s
  let iz := -1 / cz
  let jxz := cam.fx * iz
  let jyz := cam.fy * iz
  let jxzz := cam.fx * camX cam s * iz * iz
  let jyzz := cam.fy * camY cam s * iz * iz
  let w00 := jxz * m 0 + jxzz * m 2
  let w01 := jxz * m 4 + jxzz * m 6
  let w02 := jxz * m 8 + jxzz * m 10
  let w10 := jyz * m 1 + jyzz * m 2
  let w11 := jyz * m 5 + jyzz * m 6
  let w12 := jyz * m 9 + jyzz * m 10
  let t00 := w00 * s.cov0 + w01 * s.cov1 + w02 * s.cov2
  let t01 := w00 * s.cov1 + w01 * s.cov3 + w02 * s.cov4
  let t02 := w00 * s.cov2 + w01 * s.cov4 + w02 * s.cov5
  let t10 := w10 * s.cov0 + w11 * s.cov1 + w12 * s.cov2
  let t11 := w10 * s.cov1 + w11 * s.cov3 + w12 * s.cov4
  let t12 := w10 * s.cov2 + w11 * s.cov4 + w12 * s.cov5
  (t00 * w00 + t01 * w01 + t02 * w02 + 3 / 10,
    t00 * w10 + t01 * w11 + t02 * w12,
    t10 * w10 + t11 * w11 + t12 * w12 + 3 / 10)

/-- `sx_f` of gsplat.c:349 (`iz = -1.0f/cz` folded in). -/
def screenX (cam : Camera) (s3 : Splat3D) : ℚ :=
  cam.fx * camX cam s3 * (-1 / camZ cam s3) + cam.cx

/-- `sy_f` of gsplat.c:350. -/
def screenY (cam : Camera) (s3 : Splat3D) : ℚ :=
  cam.fy * camY cam s3 * (-1 / camZ cam s3) + cam.cy

/-- `det = ca*cc - cb*cb` of gsplat.c:395. -/
def cov2dDet (cam : Camera) (s3 : Splat3D) : ℚ :=
  (cov2d cam s3).1 * (cov2d cam s3).2.2 - (cov2d cam s3).2.1 * (cov2d cam s3).2.1

/-- The four 3σ bbox corners of gsplat.c:408-415. -/
def bboxX0 (sqrtQ : ℚ → ℚ) (cam : Camera) (s3 : Splat3D) : ℚ :=
  screenX cam s3 - 3 * sqrtQ (cov2d cam s3).1

def bboxY0 (sqrtQ : ℚ → ℚ) (cam : Camera) (s3 : Splat3D) : ℚ :=
  screenY cam s3 - 3 * sqrtQ (cov2d cam s3).2.2

def bboxX1 (sqrtQ : ℚ → ℚ) (cam : Camera) (s3 : Splat3D) : ℚ :=
  screenX cam s3 + 3 * sqrtQ (cov2d cam s3).1

def bboxY1 (sqrtQ : ℚ → ℚ) (cam : Camera) (s3 : Splat3D) : ℚ :=
  screenY cam s3 + 3 * sqrtQ (cov2d cam s3).2.2

/-- The entirely-offscreen test of gsplat.c:418 (without the NaN disjuncts,
which cannot fire in the exact rational model). -/
def offscreenTest (sqrtQ : ℚ → ℚ) (cam : Camera) (W H : Int) (s3 : Splat3D) : Prop :=
  bboxX1 sqrtQ cam s3 < 0 ∨ bboxY1 sqrtQ cam s3 < 0
    ∨ (W : ℚ) ≤ bboxX0 sqrtQ cam s3 ∨ (H : ℚ) ≤ bboxY0 sqrtQ cam s3

instance (sqrtQ : ℚ → ℚ) (cam : Camera) (W H : Int) (s3 : Splat3D) :
    Decidable (offscreenTest sqrtQ cam W H s3) := by
  unfold offscreenTest
  infer_instance

/-- One iteration of the `project_splats` loop (gsplat.c:331-456), as a
function of the previous contents `prev` of this splat's `splat_2d_t` slot:
all three cull paths write only the sentinel depth and the zeroed bbox and
leave every other field as it was.  (The source writes `depth = -cz` before
the determinant test and overwrites it with the sentinel when culling; only
the final value is observable.)  The source's NaN test
(`bx0 != bx0 || by0 != by0`) has no counterpart in the exact rational
model — it fires only when `sqrtf` is handed a negative `ca`. -/
def projectSplat (sqrtQ : ℚ → ℚ) (cam : Camera) (W H : Int)
    (prev : Splat2D) (s3 : Splat3D) : Splat2D :=
  if -(1 / 10) ≤ camZ cam s3 then
    { prev with depth := SENTINEL, bbox_x0 := 0, bbox_y0 := 0, bbox_x1 := 0, bbox_y1 := 0 }
  else if cov2dDet cam s3 < 1 / 100000000 then
    { prev with depth := SENTINEL, bbox_x0 := 0, bbox_y0 := 0, bbox_x1 := 0, bbox_y1 := 0 }
  else if offscreenTest sqrtQ cam W H s3 then
    { prev with depth := SENTINEL, bbox_x0 := 0, bbox_y0 := 0, bbox_x1 := 0, bbox_y1 := 0 }
  else
    let sxf := screenX cam s3
    let syf := screenY cam s3
    let det := cov2dDet cam s3
    let cx0 := if bboxX0 sqrtQ cam s3 < 0 then 0 else bboxX0 sqrtQ cam s3
    let cy0 := if bboxY0 sqrtQ cam s3 < 0 then 0 else bboxY0 sqrtQ cam s3
    let cx1 := if (W : ℚ) ≤ bboxX1 sqrtQ cam s3 then (W : ℚ) - 1 else bboxX1 sqrtQ cam s3
    let cy1 := if (H : ℚ) ≤ bboxY1 sqrtQ cam s3 then (H : ℚ) - 1 else bboxY1 sqrtQ cam s3
    let invA0 := (cov2d cam s3).2.2 * (1 / det)
    let invB0 := -(cov2d cam s3).2.1 * (1 / det)
    let invC0 := (cov2d cam s3).1 * (1 / det)
    let invA := if 3999 / 1000 < invA0 then 3999 / 1000 else invA0
    let invC := if 3999 / 1000 < invC0 then 3999 / 1000 else invC0
    let invB1 := 2 * invB0
    let invB2 := if 3999 / 1000 < invB1 then 3999 / 1000 else invB1
    let invB := if invB2 < -4 then -4 else invB2
    { sx_fp := wrap32 (ratTrunc (sxf * 16 + 1 / 2))
      sy_fp := wrap32 (ratTrunc (syf * 16 + 1 / 2))
      depth := -(camZ cam s3)
      cov_a_fp := u16cast (ratTrunc (invA * 16384 + 1 / 2))
      cov_c_fp := u16cast (ratTrunc (invC * 16384 + 1 / 2))
      cov_b2_fp := wrap32 (ratTrunc (invB * 16384))
      r := s3.r
      g := s3.g
      b := s3.b
      opacity := s3.alpha
      bbox_x0 := toInt16 (ratTrunc cx0)
      bbox_y0 := toInt16 (ratTrunc cy0)
      bbox_x1 := toInt16 (ratTrunc cx1)
      bbox_y1 := toInt16 (ratTrunc cy1) }

/-- `project_splats` (gsplat.c:325-457): rewrites `splats_2d[i]` for every
`i < count` and leaves the slots beyond the live count untouched. -/
def project_splats (sqrtQ : ℚ → ℚ) (cam : Camera) (W H : Int)
    (prev2d : Nat → Splat2D) (splats3d : Nat → Splat3D) (n : Nat) : Nat → Splat2D :=
  fun i => if i < n then projectSplat sqrtQ cam W H (prev2d i) (splats3d i) else prev2d i

/-! ### Splat store (gsplat.c:255-266, gsplat.h:88-94). -/

def MAX_SPLATS : Nat := 50000

structure SplatStore where
  splats3d : Nat → Splat3D
  count : Nat

/-- `store_add` (gsplat.c:260-266): returns `-1` and leaves the store
untouched when full, else copies the splat into the slot at the current
count, increments the count and returns 0. -/
def store_add (store : SplatStore) (splat : Splat3D) : SplatStore × Int :=
  if store.count ≥ MAX_SPLATS then (store, -1)
  else
    ({ splats3d := fun i => if i = store.count then splat else store.splats3d i
       count := store.count + 1 }, 0)

/-- C8: `store_add` fails (returns -1) iff the store already holds the
compile-time maximum `MAX_SPLATS`; on failure the store (count and every
slot) is unchanged; on success the count grows by exactly one, the new splat
is copied into the slot at the former count, and every other slot is
untouched. -/
theorem store_add_spec (store : SplatStore) (splat : Splat3D)
    (hcap : store.count ≤ MAX_SPLATS) :
    ((store_add store splat).2 = -1 ↔ store.count = MAX_SPLATS)
    ∧ ((store_add store splat).2 = -1 → (store_add store splat).1 = store)
    ∧ ((store_add store splat).2 ≠ -1 →
        (store_add store splat).1.count = store.count + 1
        ∧ (store_add store splat).1.splats3d store.count = splat
        ∧ ∀ i : Nat, i ≠ store.count →
            (store_add store splat).1.splats3d i = store.splats3d i) := by
  unfold store_add
  by_cases h : store.count ≥ MAX_SPLATS
  · rw [if_pos h]
    exact ⟨⟨fun _ => le_antisymm hcap h, fun _ => rfl⟩, fun _ => rfl,
      fun hne => absurd rfl hne⟩
  · rw [if_neg h]
    refine ⟨⟨fun habs => absurd habs (by norm_num), fun heq => absurd (le_of_eq heq.symm) h⟩,
      fun habs => absurd habs (by norm_num), fun _ => ⟨rfl, ?_, fun i hi => ?_⟩⟩
    · simp
    · simp [hi]

theorem store_add_spec_witness :
    (store_add ⟨fun _ => ⟨0, 0, 0, 0, 0, 0, 0, 0, 0, 0, 0, 0, 0⟩, 0⟩
        ⟨1, 2, 3, 0, 0, 0, 0, 0, 0, 9, 9, 9, 9⟩).1.count = 1
    ∧ (store_add ⟨fun _ => ⟨0, 0, 0, 0, 0, 0, 0, 0, 0, 0, 0, 0, 0⟩, 0⟩
        ⟨1, 2, 3, 0, 0, 0, 0, 0, 0, 9, 9, 9, 9⟩).1.splats3d 0
      = ⟨1, 2, 3, 0, 0, 0, 0, 0, 0, 9, 9, 9, 9⟩ := by
  have h := store_add_spec ⟨fun _ => ⟨0, 0, 0, 0, 0, 0, 0, 0, 0, 0, 0, 0, 0⟩, 0⟩
    ⟨1, 2, 3, 0, 0, 0, 0, 0, 0, 9, 9, 9, 9⟩ (by norm_num [MAX_SPLATS])
  have h3 := h.2.2 (by norm_num [store_add, MAX_SPLATS])
  exact ⟨h3.1, h3.2.1⟩

theorem ratTrunc_nonneg {q : ℚ} (h : 0 ≤ q) : ratTrunc q = ⌊q⌋ := by
  unfold ratTrunc
  rw [if_neg (not_lt.mpr h)]

theorem toInt16_eq_self {z : Int} (h1 : -32768 ≤ z) (h2 : z < 32768) : toInt16 z = z := by
  unfold toInt16
  rw [Int.emod_eq_of_lt (by omega) (by omega)]
  omega

/-- The clamp-and-truncate of one bbox axis (gsplat.c:426-434): given the
guards of the offscreen test (`hi` not below 0, `lo` below the surface
extent) and `lo ≤ hi`, the resulting `int16_t` pair lies in `[0, W)` in
order. -/
theorem clamp_bbox_bounds {lo hi : ℚ} {W : Int}
    (hW1 : 1 ≤ W) (hW2 : W ≤ 32768)
    (hlohi : lo ≤ hi) (hhi : ¬ hi < 0) (hlo : ¬ (W : ℚ) ≤ lo) :
    0 ≤ toInt16 (ratTrunc (if lo < 0 then 0 else lo))
    ∧ toInt16 (ratTrunc (if lo < 0 then 0 else lo))
        ≤ toInt16 (ratTrunc (if (W : ℚ) ≤ hi then (W : ℚ) - 1 else hi))
    ∧ toInt16 (ratTrunc (if (W : ℚ) ≤ hi then (W : ℚ) - 1 else hi)) < W := by
  have hW1Q : (1 : ℚ) ≤ (W : ℚ) := by exact_mod_cast hW1
  set clo := if lo < 0 then (0 : ℚ) else lo with hclo
  set chi := if (W : ℚ) ≤ hi then (W : ℚ) - 1 else hi with hchi
  have hclo0 : 0 ≤ clo := by
    rw [hclo]
    by_cases hl : lo < 0
    · rw [if_pos hl]
    · rw [if_neg hl]; exact le_of_not_lt hl
  have hcloW : clo < (W : ℚ) := by
    rw [hclo]
    by_cases hl : lo < 0
    · rw [if_pos hl]; linarith
    · rw [if_neg hl]; exact lt_of_not_le hlo
  have hchi0 : 0 ≤ chi := by
    rw [hchi]
    by_cases hh : (W : ℚ) ≤ hi
    · rw [if_pos hh]; linarith
    · rw [if_neg hh]; exact le_of_not_lt hhi
  have hchiW : chi < (W : ℚ) := by
    rw [hchi]
    by_cases hh : (W : ℚ) ≤ hi
    · rw [if_pos hh]; linarith
    · rw [if_neg hh]; exact lt_of_not_le hh
  have f1 : 0 ≤ ⌊clo⌋ := Int.le_floor.mpr (by exact_mod_cast hclo0)
  have f2 : ⌊clo⌋ < W := Int.floor_lt.mpr (by exact_mod_cast hcloW)
  have f3 : 0 ≤ ⌊chi⌋ := Int.le_floor.mpr (by exact_mod_cast hchi0)
  have f4 : ⌊chi⌋ < W := Int.floor_lt.mpr (by exact_mod_cast hchiW)
  have hle : ⌊clo⌋ ≤ ⌊chi⌋ := by
    by_cases hh : (W : ℚ) ≤ hi
    · have : chi = ((W - 1 : Int) : ℚ) := by rw [hchi, if_pos hh]; push_cast; ring
      rw [this, Int.floor_intCast]
      omega
    · have hc : chi = hi := by rw [hchi, if_neg hh]
      refine Int.floor_mono ?_
      rw [hc, hclo]
      by_cases hl : lo < 0
      · rw [if_pos hl]; rw [hc] at hchi0; exact hchi0
      · rw [if_neg hl]; exact hlohi
  rw [ratTrunc_nonneg hclo0, ratTrunc_nonneg hchi0,
    toInt16_eq_self (by omega) (by omega), toInt16_eq_self (by omega) (by omega)]
  exact ⟨f1, hle, f4⟩

/-- C6 (P4): every splat admitted by `project_splats` to rasterisation
(non-sentinel depth) has `0 ≤ bbox_x0 ≤ bbox_x1 < W` and
`0 ≤ bbox_y0 ≤ bbox_y1 < H`.  Side conditions: surface extents in
`[1, 32768]` (so the `int16_t` bbox fields do not wrap) and `sqrtQ`
nonnegative (as `sqrtf` is wherever it returns a number). -/
theorem bbox_containment (sqrtQ : ℚ → ℚ) (cam : Camera) (W H : Int)
    (prev : Splat2D) (s3 : Splat3D)
    (hsq : ∀ q : ℚ, 0 ≤ sqrtQ q)
    (hW1 : 1 ≤ W) (hH1 : 1 ≤ H) (hW2 : W ≤ 32768) (hH2 : H ≤ 32768)
    (hadm : (projectSplat sqrtQ cam W H prev s3).depth ≠ SENTINEL) :
    0 ≤ (projectSplat sqrtQ cam W H prev s3).bbox_x0
    ∧ (projectSplat sqrtQ cam W H prev s3).bbox_x0
        ≤ (projectSplat sqrtQ cam W H prev s3).bbox_x1
    ∧ (projectSplat sqrtQ cam W H prev s3).bbox_x1 < W
    ∧ 0 ≤ (projectSplat sqrtQ cam W H prev s3).bbox_y0
    ∧ (projectSplat sqrtQ cam W H prev s3).bbox_y0
        ≤ (projectSplat sqrtQ cam W H prev s3).bbox_y1
    ∧ (projectSplat sqrtQ cam W H prev s3).bbox_y1 < H := by
  unfold projectSplat at hadm ⊢
  by_cases h1 : -(1 / 10 : ℚ) ≤ camZ cam s3
  · rw [if_pos h1] at hadm
    exact absurd rfl hadm
  · rw [if_neg h1] at hadm ⊢
    by_cases h2 : cov2dDet cam s3 < 1 / 100000000
    · rw [if_pos h2] at hadm
      exact absurd rfl hadm
    · rw [if_neg h2] at hadm ⊢
      by_cases h3 : offscreenTest sqrtQ cam W H s3
      · rw [if_pos h3] at hadm
        exact absurd rfl hadm
      · rw [if_neg h3] at hadm ⊢
        unfold offscreenTest at h3
        push_neg at h3
        obtain ⟨h3a, h3b, h3c, h3d⟩ := h3
        have hxlohi : bboxX0 sqrtQ cam s3 ≤ bboxX1 sqrtQ cam s3 := by
          unfold bboxX0 bboxX1
          have := hsq (cov2d cam s3).1
          linarith
        have hylohi : bboxY0 sqrtQ cam s3 ≤ bboxY1 sqrtQ cam s3 := by
          unfold bboxY0 bboxY1
          have := hsq (cov2d cam s3).2.2
          linarith
        have hx := clamp_bbox_bounds hW1 hW2 hxlohi (not_lt.mpr h3a) (not_le.mpr h3c)
        have hy := clamp_bbox_bounds hH1 hH2 hylohi (not_lt.mpr h3b) (not_le.mpr h3d)
        exact ⟨hx.1, hx.2.1, hx.2.2, hy.1, hy.2.1, hy.2.2⟩

/-- C7 amended: (i) every splat whose camera-space `cz` satisfies
`cz ≥ -0.1` is marked culled — depth set to the far sentinel, bounding box
zeroed, and no other field of its record written; (ii) a splat strictly in
front of the near plane with non-degenerate projected covariance *whose 3σ
box is not entirely offscreen* receives the finite positive depth `-cz`.
(The original claim omits the offscreen condition, which also culls; see
`near_cull_counterexample`.) -/
theorem near_plane_cull (sqrtQ : ℚ → ℚ) (cam : Camera) (W H : Int)
    (prev : Splat2D) (s3 : Splat3D) :
    (-(1 / 10) ≤ camZ cam s3 →
      projectSplat sqrtQ cam W H prev s3
        = { prev with
            depth := SENTINEL
            bbox_x0 := 0
            bbox_y0 := 0
            bbox_x1 := 0
            bbox_y1 := 0 })
    ∧ (camZ cam s3 < -(1 / 10) →
        1 / 100000000 ≤ cov2dDet cam s3 →
        ¬ offscreenTest sqrtQ cam W H s3 →
        (projectSplat sqrtQ cam W H prev s3).depth = -(camZ cam s3)
        ∧ 0 < (projectSplat sqrtQ cam W H prev s3).depth) := by
  constructor
  · intro h1
    unfold projectSplat
    rw [if_pos h1]
  · intro h1 h2 h3
    unfold projectSplat
    rw [if_neg (not_le.mpr h1), if_neg (not_lt.mpr h2), if_neg h3]
    refine ⟨rfl, ?_⟩
    show (0 : ℚ) < -(camZ cam s3)
    linarith

/-- Identity view matrix (column-major 4x4). -/
def idView : Nat → ℚ := fun i => if i = 0 ∨ i = 5 ∨ i = 10 ∨ i = 15 then 1 else 0

def cxCam : Camera := { view := idView, fx := 1, fy := 1, cx := 0, cy := 0 }

/-- A splat 1000 units to the right, 1 unit in front of the camera, with a
covariance that projects to `ca = cc = 0.36`, `cb = 0` (`det = 0.1296`). -/
def cxSplat : Splat3D :=
  ⟨1000, 0, -1, 3 / 50, 0, 0, 3 / 50, 0, 0, 0, 0, 0, 0⟩

def zeroSplat2D : Splat2D := ⟨0, 0, 0, 0, 0, 0, 0, 0, 0, 0, 0, 0, 0, 0⟩

theorem cxSplat_cz : camZ cxCam cxSplat = -1 := by
  norm_num [camZ, cxCam, cxSplat, idView]

theorem cxSplat_cov : cov2d cxCam cxSplat = (9 / 25, 0, 9 / 25) := by
  norm_num [cov2d, camX, camY, camZ, cxCam, cxSplat, idView]

/-- C7 counterexample: `cxSplat` is strictly in front of the near plane
(`cz = -1 < -0.1`) and has non-degenerate projected covariance
(`det = 0.1296 ≥ 1e-8`), yet its depth is the far sentinel, not `-cz = 1`:
its 3σ box lies entirely right of the 64×64 surface, so the offscreen test
culls it.  This refutes the claim's second half as stated. -/
theorem near_cull_counterexample :
    camZ cxCam cxSplat < -(1 / 10)
    ∧ 1 / 100000000 ≤ cov2dDet cxCam cxSplat
    ∧ (projectSplat (fun _ => 3 / 5) cxCam 64 64 zeroSplat2D cxSplat).depth
        ≠ -(camZ cxCam cxSplat) := by
  refine ⟨by rw [cxSplat_cz]; norm_num, ?_, ?_⟩
  · unfold cov2dDet
    rw [cxSplat_cov]
    norm_num
  · have hoff : offscreenTest (fun _ => 3 / 5) cxCam 64 64 cxSplat := by
      unfold offscreenTest
      right; right; left
      unfold bboxX0 screenX
      rw [cxSplat_cov]
      norm_num [camX, camZ, cxCam, cxSplat, idView]
    unfold projectSplat
    rw [if_neg (by rw [cxSplat_cz]; norm_num),
      if_neg (by unfold cov2dDet; rw [cxSplat_cov]; norm_num), if_pos hoff]
    show SENTINEL ≠ -(camZ cxCam cxSplat)
    rw [cxSplat_cz]
    norm_num [SENTINEL]

/-- A splat straight ahead, 1 unit in front of the camera (admitted to
rasterisation on a 64×64 surface). -/
def frontSplat : Splat3D :=
  ⟨0, 0, -1, 3 / 50, 0, 0, 3 / 50, 0, 0, 255, 0, 0, 255⟩

theorem frontSplat_cz : camZ cxCam frontSplat = -1 := by
  norm_num [camZ, cxCam, frontSplat, idView]

theorem frontSplat_cov : cov2d cxCam frontSplat = (9 / 25, 0, 9 / 25) := by
  norm_num [cov2d, camX, camY, camZ, cxCam, cxSplat, frontSplat, idView]

theorem frontSplat_not_offscreen :
    ¬ offscreenTest (fun _ => 3 / 5) cxCam 64 64 frontSplat := by
  unfold offscreenTest bboxX0 bboxX1 bboxY0 bboxY1 screenX screenY
  rw [frontSplat_cov]
  push_neg
  refine ⟨?_, ?_, ?_, ?_⟩ <;>
    norm_num [camX, camY, camZ, cxCam, frontSplat, idView]

theorem near_plane_cull_witness :
    (projectSplat (fun _ => 3 / 5) cxCam 64 64 zeroSplat2D
        ⟨0, 0, 1, 0, 0, 0, 0, 0, 0, 0, 0, 0, 0⟩
      = { zeroSplat2D with
          depth := SENTINEL
          bbox_x0 := 0
          bbox_y0 := 0
          bbox_x1 := 0
          bbox_y1 := 0 })
    ∧ (projectSplat (fun _ => 3 / 5) cxCam 64 64 zeroSplat2D frontSplat).depth = 1 := by
  constructor
  · exact (near_plane_cull (fun _ => 3 / 5) cxCam 64 64 zeroSplat2D
      ⟨0, 0, 1, 0, 0, 0, 0, 0, 0, 0, 0, 0, 0⟩).1
      (by norm_num [camZ, cxCam, idView])
  · have h := (near_plane_cull (fun _ => 3 / 5) cxCam 64 64 zeroSplat2D frontSplat).2
      (by rw [frontSplat_cz]; norm_num)
      (by unfold cov2dDet; rw [frontSplat_cov]; norm_num)
      frontSplat_not_offscreen
    rw [h.1, frontSplat_cz]
    norm_num

theorem bbox_containment_witness :
    0 ≤ (projectSplat (fun _ => 3 / 5) cxCam 64 64 zeroSplat2D frontSplat).bbox_x0
    ∧ (projectSplat (fun _ => 3 / 5) cxCam 64 64 zeroSplat2D frontSplat).bbox_x0
        ≤ (projectSplat (fun _ => 3 / 5) cxCam 64 64 zeroSplat2D frontSplat).bbox_x1
    ∧ (projectSplat (fun _ => 3 / 5) cxCam 64 64 zeroSplat2D frontSplat).bbox_x1 < 64
    ∧ 0 ≤ (projectSplat (fun _ => 3 / 5) cxCam 64 64 zeroSplat2D frontSplat).bbox_y0
    ∧ (projectSplat (fun _ => 3 / 5) cxCam 64 64 zeroSplat2D frontSplat).bbox_y0
        ≤ (projectSplat (fun _ => 3 / 5) cxCam 64 64 zeroSplat2D frontSplat).bbox_y1
    ∧ (projectSplat (fun _ => 3 / 5) cxCam 64 64 zeroSplat2D frontSplat).bbox_y1 < 64 := by
  have hadm : (projectSplat (fun _ => 3 / 5) cxCam 64 64 zeroSplat2D frontSplat).depth
      ≠ SENTINEL := by
    unfold projectSplat
    rw [if_neg (by rw [frontSplat_cz]; norm_num),
      if_neg (by unfold cov2dDet; rw [frontSplat_cov]; norm_num),
      if_neg frontSplat_not_offscreen]
    show -(camZ cxCam frontSplat) ≠ SENTINEL
    rw [frontSplat_cz]
    norm_num [SENTINEL]
  exact bbox_containment (fun _ => 3 / 5) cxCam 64 64 zeroSplat2D frontSplat
    (fun q => by norm_num) (by norm_num) (by norm_num) (by norm_num) (by norm_num) hadm

/-! ### Fixed-point tile rasterizer (gsplat.c:41-52, 137-212, 526-678). -/

def TILE_W : Nat := 32

def TILE_H : Nat := 32

def GAUSS_LUT_SIZE : Nat := 2048

/-- `8 << 18`: d² ≥ 8.0 in the u4.18 accumulator. -/
def GAUSS_LUT_D2_CUTOFF_FP : Int := 8 * 2 ^ 18

/-- Arithmetic shift right of a signed value (C `>>`): floor division. -/
def sar (z : Int) (k : Nat) : Int := Int.fdiv z (2 ^ k)

/-- `dx` in s14.4 at tile-local pixel `tx` (pixel centre `(..)*16 + 8`). -/
def dxFpAt (s : Splat2D) (tpx tx : Nat) : Int :=
  wrap32 (((tpx + tx : Nat) * 16 + 8 : Int) - s.sx_fp)

def dyFpAt (s : Splat2D) (tpy ty : Nat) : Int :=
  wrap32 (((tpy + ty : Nat) * 16 + 8 : Int) - s.sy_fp)

/-- The fixed-point quadratic form `d2_sum` at tile pixel `(tx, ty)`
(gsplat.c:576-608), with every `(int32_t)` narrowing of the source wrapped.
The source computes `dx²` and `dx·dy` incrementally per pixel
(gsplat.c:639-646); those updates are congruent mod 2^32 to these direct
products, since `(dx+16)² = dx² + 32·dx + 256` and
`(dx+16)·dy = dx·dy + 16·dy` hold exactly over ℤ. -/
def d2SumAt (s : Splat2D) (tpx tpy tx ty : Nat) : Int :=
  let dx := dxFpAt s tpx tx
  let dy := dyFpAt s tpy ty
  let dy2s := wrap32 (sar (dy * dy) 4)
  let termC := (s.cov_c_fp : Int) * dy2s
  let dx2raw := wrap32 (dx * dx)
  let dxdyraw := wrap32 (dx * dy)
  let dx2s := sar dx2raw 4
  let dxdys := sar dxdyraw 4
  let termA := (s.cov_a_fp : Int) * dx2s
  let termB := s.cov_b2_fp * dxdys
  wrap32 (termA + termB + termC)

/-- One channel blend `(src*w + old*omw) >> 7` with the `(uint16_t)` store
into `tile_buf`. -/
def blendChannel (src w omw old : Nat) : Nat :=
  ((src * w + old * omw) >>> 7) % 2 ^ 16

/-- Per-pixel body of the inner loop of `rasterize_splat_tile`
(gsplat.c:597-637): cutoff test, LUT index guard, weight from
`(gauss * opacity) >> 17` clamped to 128, then the four-channel alpha blend
at `tile_buf[(ty*TILE_W + tx)*4 ..]` (all four reads happen before the
corresponding cell is rewritten). -/
def pixelBlend (lut : Nat → Nat) (s : Splat2D) (tpx tpy : Nat)
    (tile : Nat → Nat) (txy : Nat × Nat) : Nat → Nat :=
  let d2 := d2SumAt s tpx tpy txy.1 txy.2
  if d2 < 0 ∨ GAUSS_LUT_D2_CUTOFF_FP ≤ d2 then tile
  else
    let lutIdx := (sar d2 10).toNat
    if GAUSS_LUT_SIZE ≤ lutIdx then tile
    else
      let gauss := lut lutIdx % 2 ^ 16
      let w0 := (gauss * s.opacity) >>> 17
      if w0 = 0 then tile
      else
        let w := if 128 < w0 then 128 else w0
        let omw := 128 - w
        let base := (txy.2 * TILE_W + txy.1) * 4
        fun p =>
          if p = base then blendChannel (s.r <<< 2) w omw (tile base)
          else if p = base + 1 then blendChannel (s.g <<< 2) w omw (tile (base + 1))
          else if p = base + 2 then blendChannel (s.b <<< 2) w omw (tile (base + 2))
          else if p = base + 3 then blendChannel 1020 w omw (tile (base + 3))
          else tile p

/-- `rasterize_splat_tile` (gsplat.c:546-649): clip the splat bbox to the
tile, return unchanged if the clipped rectangle is empty, else blend every
pixel of the rectangle in row-major order. -/
def rasterize_splat_tile (lut : Nat → Nat) (s : Splat2D) (tpx tpy : Nat)
    (tile : Nat → Nat) : Nat → Nat :=
  let x0 : Int := if s.bbox_x0 - (tpx : Int) < 0 then 0 else s.bbox_x0 - (tpx : Int)
  let y0 : Int := if s.bbox_y0 - (tpy : Int) < 0 then 0 else s.bbox_y0 - (tpy : Int)
  let x1 : Int := if (TILE_W : Int) ≤ s.bbox_x1 - (tpx : Int) then (TILE_W : Int) - 1
    else s.bbox_x1 - (tpx : Int)
  let y1 : Int := if (TILE_H : Int) ≤ s.bbox_y1 - (tpy : Int) then (TILE_H : Int) - 1
    else s.bbox_y1 - (tpy : Int)
  if x0 > x1 ∨ y0 > y1 then tile
  else
    let pixels := (List.range' y0.toNat (y1.toNat + 1 - y0.toNat)).flatMap
      fun ty => (List.range' x0.toNat (x1.toNat + 1 - x0.toNat)).map fun tx => (tx, ty)
    pixels.foldl (pixelBlend lut s tpx tpy) tile

/-- `tile_clear` (gsplat.c:150-153): memset of the whole accumulator,
whatever it previously held. -/
def tile_clear (_tile0 : Nat → Nat) : Nat → Nat := fun _ => 0

/-- The per-tile splat walk of `rasterize_splats` (gsplat.c:659-672): clear
the accumulator, then visit the sorted permutation in order, skipping splats
whose bbox misses the tile (half-open overlap test, gsplat.c:668-669). -/
def tileAccum (lut : Nat → Nat) (splats2d : Nat → Splat2D) (perm : List Nat)
    (tpx tpy : Nat) (tile0 : Nat → Nat) : Nat → Nat :=
  perm.foldl
    (fun tile idx =>
      if (splats2d idx).bbox_x1 < (tpx : Int)
          ∨ ((tpx : Int) + (TILE_W : Int)) ≤ (splats2d idx).bbox_x0
          ∨ (splats2d idx).bbox_y1 < (tpy : Int)
          ∨ ((tpy : Int) + (TILE_H : Int)) ≤ (splats2d idx).bbox_y0 then tile
      else rasterize_splat_tile lut (splats2d idx) tpx tpy tile)
    (tile_clear tile0)

/-- One 32bpp pixel of `tile_flush` (gsplat.c:164-186): `u0.10 >> 2` per
channel, clamped to 255, packed as `0xFF000000 | r<<16 | g<<8 | b`. -/
def flushPixel32 (tile : Nat → Nat) (tx ty : Nat) : Nat :=
  let r8 := tile ((ty * TILE_W + tx) * 4) >>> 2
  let g8 := tile ((ty * TILE_W + tx) * 4 + 1) >>> 2
  let b8 := tile ((ty * TILE_W + tx) * 4 + 2) >>> 2
  let r8c := if 255 < r8 then 255 else r8
  let g8c := if 255 < g8 then 255 else g8
  let b8c := if 255 < b8 then 255 else b8
  0xFF000000 ||| (r8c <<< 16) ||| (g8c <<< 8) ||| b8c

/-- One 16bpp pixel of `tile_flush` (gsplat.c:188-210): `>> 5 / >> 4 / >> 5`
per channel, clamped to 31/63/31, packed 5-6-5. -/
def flushPixel16 (tile : Nat → Nat) (tx ty : Nat) : Nat :=
  let r5 := tile ((ty * TILE_W + tx) * 4) >>> 5
  let g6 := tile ((ty * TILE_W + tx) * 4 + 1) >>> 4
  let b5 := tile ((ty * TILE_W + tx) * 4 + 2) >>> 5
  let r5c := if 31 < r5 then 31 else r5
  let g6c := if 63 < g6 then 63 else g6
  let b5c := if 31 < b5 then 31 else b5
  (r5c <<< 11) ||| (g6c <<< 5) ||| b5c

/-- The full per-frame CPU pipeline at one pixel of a 32bpp tile-aligned
surface: `project_splats` (rewriting the projected records over their
previous contents), `sort_splats` (with explicit residual scratch), then
the tile walk of `rasterize_splats` for the pixel's tile and the 32bpp
flush (gsplat.c:651-678, driven per frame from main.c:254-265).  Tiles are
processed independently, so a pixel's value is determined by its own
tile's accumulator at flush time. -/
def framePixels32 (sqrtQ : ℚ → ℚ) (lut : Nat → Nat) (cam : Camera) (W H : Int)
    (prev2d : Nat → Splat2D) (splats3d : Nat → Splat3D) (n : Nat)
    (keys0 buf0 idx0 tile0 : Nat → Nat) (x y : Nat) : Nat :=
  let s2 := project_splats sqrtQ cam W H prev2d splats3d n
  let depths := (List.range n).map fun i => (s2 i).depth
  let perm := sort_splats_scratch keys0 buf0 idx0 depths
  flushPixel32 (tileAccum lut s2 perm (x / TILE_W * TILE_W) (y / TILE_H * TILE_H) tile0)
    (x % TILE_W) (y % TILE_H)

/-- C9: the per-frame pipeline is a deterministic function of its visible
inputs.  Two runs over the same Splat3D contents, count, previous projected
records, camera, LUT and surface geometry produce the same pixel value,
whatever the residual contents of the static sort scratch buffers (`keys`,
`buf_idx`, `sort_idx`) and of the persistent tile accumulator — the only
hidden state in which a second, "identical" run could differ.  In
particular, running the pipeline twice from the same full program state
yields identical surface pixels. -/
theorem frame_deterministic (sqrtQ : ℚ → ℚ) (lut : Nat → Nat) (cam : Camera)
    (W H : Int) (prev2d : Nat → Splat2D) (splats3d : Nat → Splat3D) (n : Nat)
    (k1 b1 i1 t1 k2 b2 i2 t2 : Nat → Nat) (x y : Nat) :
    framePixels32 sqrtQ lut cam W H prev2d splats3d n k1 b1 i1 t1 x y
      = framePixels32 sqrtQ lut cam W H prev2d splats3d n k2 b2 i2 t2 x y := by
  simp only [framePixels32]
  rw [sort_splats_scratch_eq, sort_splats_scratch_eq]
  rfl

/-- C5 (P8): at every pixel whose fixed-point quadratic form `d2_sum` is at
or beyond the cutoff `8·2^18` (d² ≥ 8.0), the kernel contribution is exactly
zero: the cutoff test fires before any LUT access or blend, and all four
accumulator channels at that pixel are left unchanged. -/
theorem kernel_cutoff (lut : Nat → Nat) (s : Splat2D) (tpx tpy tx ty : Nat)
    (tile : Nat → Nat) (h : GAUSS_LUT_D2_CUTOFF_FP ≤ d2SumAt s tpx tpy tx ty) :
    pixelBlend lut s tpx tpy tile (tx, ty) = tile := by
  unfold pixelBlend
  rw [if_pos (Or.inr h)]

theorem kernel_cutoff_witness :
    pixelBlend (fun _ => 65535) ⟨0, 0, 0, 65535, 0, 0, 0, 0, 0, 255, 0, 0, 0, 0⟩
        0 0 (fun _ => 7) (31, 0)
      = (fun _ => 7) :=
  kernel_cutoff (fun _ => 65535) ⟨0, 0, 0, 65535, 0, 0, 0, 0, 0, 255, 0, 0, 0, 0⟩
    0 0 31 0 (fun _ => 7) (by decide)

theorem foldl_invariant {α β : Type} (P : α → Prop) (f : α → β → α) (l : List β) (a : α)
    (h0 : P a) (hstep : ∀ x b, P x → P (f x b)) : P (l.foldl f a) := by
  induction l generalizing a with
  | nil => exact h0
  | cons b t ih => exact ih (f a b) (hstep a b h0)

/-- The core blend bound: with `w ≤ 128` and `omw = 128 - w`, the blended
value `(src*w + acc*omw) >> 7` never exceeds the larger operand. -/
theorem blendChannel_le_max (src acc w : Nat) (hw : w ≤ 128) (hsrc : src ≤ 1020)
    (hacc : acc ≤ 1020) : blendChannel src w (128 - w) acc ≤ max src acc := by
  unfold blendChannel
  have hm1 : src ≤ max src acc := le_max_left _ _
  have hm2 : acc ≤ max src acc := le_max_right _ _
  have h1 : src * w + acc * (128 - w) ≤ max src acc * 128 := by
    calc src * w + acc * (128 - w)
        ≤ max src acc * w + max src acc * (128 - w) :=
          Nat.add_le_add (Nat.mul_le_mul_right _ hm1) (Nat.mul_le_mul_right _ hm2)
      _ = max src acc * 128 := by rw [← Nat.mul_add]; congr 1; omega
  have h2 : (src * w + acc * (128 - w)) >>> 7 ≤ max src acc := by
    rw [Nat.shiftRight_eq_div_pow]
    calc (src * w + acc * (128 - w)) / 2 ^ 7
        ≤ max src acc * 128 / 2 ^ 7 := Nat.div_le_div_right h1
      _ = max src acc := by omega
  have h3 : max src acc ≤ 1020 := max_le hsrc hacc
  rw [Nat.mod_eq_of_lt (by omega)]
  exact h2

theorem blend_bound_1020 (src old w0 : Nat) (hsrc : src ≤ 1020) (hold : old ≤ 1020) :
    blendChannel src (if 128 < w0 then 128 else w0)
      (128 - (if 128 < w0 then 128 else w0)) old ≤ 1020 := by
  have hw : (if 128 < w0 then 128 else w0) ≤ 128 := by split <;> omega
  have h1 := blendChannel_le_max src old _ hw hsrc hold
  have h2 : max src old ≤ 1020 := max_le hsrc hold
  omega

theorem pixelBlend_bounded (lut : Nat → Nat) (s : Splat2D) (tpx tpy : Nat)
    (tile : Nat → Nat) (txy : Nat × Nat)
    (hr : s.r ≤ 255) (hg : s.g ≤ 255) (hb : s.b ≤ 255)
    (ht : ∀ p : Nat, tile p ≤ 1020) :
    ∀ p : Nat, pixelBlend lut s tpx tpy tile txy p ≤ 1020 := by
  intro p
  have hsr : s.r <<< 2 ≤ 1020 := by rw [Nat.shiftLeft_eq]; omega
  have hsg : s.g <<< 2 ≤ 1020 := by rw [Nat.shiftLeft_eq]; omega
  have hsb : s.b <<< 2 ≤ 1020 := by rw [Nat.shiftLeft_eq]; omega
  simp only [pixelBlend]
  split
  · exact ht p
  · split
    · exact ht p
    · split
      · exact ht p
      · simp only []
        split
        · exact blend_bound_1020 _ _ _ hsr (ht _)
        · split
          · exact blend_bound_1020 _ _ _ hsg (ht _)
          · split
            · exact blend_bound_1020 _ _ _ hsb (ht _)
            · split
              · exact blend_bound_1020 _ _ _ (by norm_num) (ht _)
              · exact ht p

theorem ite_bound {c : Prop} [Decidable c] {f g : Nat → Nat} (p : Nat)
    (hf : f p ≤ 1020) (hg : g p ≤ 1020) : (if c then f else g) p ≤ 1020 := by
  split
  · exact hf
  · exact hg

theorem rasterize_splat_tile_bounded (lut : Nat → Nat) (s : Splat2D) (tpx tpy : Nat)
    (tile : Nat → Nat) (hr : s.r ≤ 255) (hg : s.g ≤ 255) (hb : s.b ≤ 255)
    (ht : ∀ p : Nat, tile p ≤ 1020) :
    ∀ p : Nat, rasterize_splat_tile lut s tpx tpy tile p ≤ 1020 := by
  simp only [rasterize_splat_tile]
  intro p
  exact ite_bound p (ht p)
    (foldl_invariant (fun t => ∀ q : Nat, t q ≤ 1020) _ _ tile ht
      (fun t b hbd => pixelBlend_bounded lut s tpx tpy t b hr hg hb hbd) p)

theorem tileAccum_bounded_aux (lut : Nat → Nat) (splats2d : Nat → Splat2D)
    (perm : List Nat) (tpx tpy : Nat) (tile0 : Nat → Nat)
    (hwf : ∀ i : Nat, (splats2d i).r ≤ 255 ∧ (splats2d i).g ≤ 255 ∧ (splats2d i).b ≤ 255) :
    ∀ p : Nat, tileAccum lut splats2d perm tpx tpy tile0 p ≤ 1020 := by
  unfold tileAccum
  refine foldl_invariant (fun t => ∀ q : Nat, t q ≤ 1020) _ perm (tile_clear tile0)
    (fun q => by simp [tile_clear]) ?_
  intro t idx hti
  intro q
  exact ite_bound q (hti q)
    (rasterize_splat_tile_bounded lut (splats2d idx) tpx tpy t
      (hwf idx).1 (hwf idx).2.1 (hwf idx).2.2 hti q)

/-- C10: starting from a cleared tile, every blend step of the tile's splat
walk keeps each accumulator channel within `[0, 1020]` (u0.10 of a scaled
8-bit color): with `w ≤ 128` and `omw = 128 - w`,
`(src·w + acc·omw) >> 7` never exceeds the larger of `src` (≤ 1020) and
`acc`.  Consequently the values `tile_flush` shifts down are already within
range (`>>2 ≤ 255`, `>>4 ≤ 63`, `>>5 ≤ 31`), so its overflow clamps
(`r8 > 255`, `g6 > 63`, `r5/b5 > 31`) can never fire.  The `uint8_t`
typing of the color fields is the hypothesis `hwf`. -/
theorem tile_accum_bounded (lut : Nat → Nat) (splats2d : Nat → Splat2D)
    (perm : List Nat) (tpx tpy : Nat) (tile0 : Nat → Nat)
    (hwf : ∀ i : Nat, (splats2d i).r ≤ 255 ∧ (splats2d i).g ≤ 255 ∧ (splats2d i).b ≤ 255) :
    (∀ p : Nat, tileAccum lut splats2d perm tpx tpy tile0 p ≤ 1020)
    ∧ (∀ p : Nat, tileAccum lut splats2d perm tpx tpy tile0 p >>> 2 ≤ 255
        ∧ tileAccum lut splats2d perm tpx tpy tile0 p >>> 4 ≤ 63
        ∧ tileAccum lut splats2d perm tpx tpy tile0 p >>> 5 ≤ 31)
    ∧ ∀ src acc w : Nat, w ≤ 128 → src ≤ 1020 → acc ≤ 1020 →
        blendChannel src w (128 - w) acc ≤ max src acc := by
  have hb := tileAccum_bounded_aux lut splats2d perm tpx tpy tile0 hwf
  refine ⟨hb, fun p => ?_, fun src acc w hw hs ha => blendChannel_le_max src acc w hw hs ha⟩
  have := hb p
  refine ⟨?_, ?_, ?_⟩ <;> rw [Nat.shiftRight_eq_div_pow] <;> omega

theorem tile_accum_bounded_witness :
    tileAccum (fun _ => 65535) (fun _ => ⟨8, 8, 0, 0, 0, 0, 255, 255, 255, 255, 0, 0, 0, 0⟩)
      [0] 0 0 (fun _ => 7) 0 ≤ 1020 :=
  (tile_accum_bounded (fun _ => 65535)
    (fun _ => ⟨8, 8, 0, 0, 0, 0, 255, 255, 255, 255, 0, 0, 0, 0⟩) [0] 0 0 (fun _ => 7)
    fun _ => ⟨Nat.le_refl 255, Nat.le_refl 255, Nat.le_refl 255⟩).1 0

/-- Model of the `gauss_lut` entries exercised below: only index 0 is read,
and the source's entry 0 is `(uint16_t)(expf(0)*65535.0f + 0.5f) = 65535`
exactly (gsplat.c:46-52). -/
def gaussLut0 : Nat → Nat := fun i => if i = 0 then 65535 else 0

/-- Residual (uninitialised / stale) contents of the single `splat_2d_t`
slot: the cull path of `project_splats` writes only `depth` and the bbox,
so the rasterizer sees these values for every other field. -/
def residual2D : Splat2D := ⟨8, 8, 0, 0, 0, 0, 255, 255, 255, 255, 0, 0, 0, 0⟩

/-- A splat at camera-space `z = +1` (world `(0,0,1)` under the identity
view): behind the camera. -/
def behindSplat3 : Splat3D := ⟨0, 0, 1, 0, 0, 0, 0, 0, 0, 0, 0, 0, 0⟩

def culledResidual : Splat2D :=
  { residual2D with depth := SENTINEL, bbox_x0 := 0, bbox_y0 := 0, bbox_x1 := 0, bbox_y1 := 0 }

set_option maxRecDepth 10000 in
/-- C3 scenario, evaluated: one splat at camera-space `z = +1` on a 64×64
32bpp surface.  `project_splats` culls it (sentinel depth, zeroed bbox) but
writes nothing else, yet the zeroed bbox `(0,0)-(0,0)` still passes the
inclusive tile-overlap test for tile (0,0), so `rasterize_splat_tile` blends
the culled splat's *residual* record into pixel (0,0): with residual
`sx_fp = sy_fp = 8`, zero covariance, color (255,255,255), opacity 255 the
pixel flushes to `0xFFFDFDFD`, not the opaque-black `0xFF000000` the claim
(and spec scenario 4) requires. -/
theorem behind_camera_pixel_not_black :
    framePixels32 (fun _ => 0) gaussLut0 cxCam 64 64 (fun _ => residual2D)
        (fun _ => behindSplat3) 1 (fun _ => 0) (fun _ => 0) (fun _ => 0) (fun _ => 0) 0 0
      = 0xFFFDFDFD
    ∧ (0xFFFDFDFD : Nat) ≠ 0xFF000000 := by
  refine ⟨?_, by norm_num⟩
  simp only [framePixels32]
  have hproj : project_splats (fun _ => 0) cxCam 64 64 (fun _ => residual2D)
      (fun _ => behindSplat3) 1 = fun i => if i < 1 then culledResidual else residual2D := by
    funext i
    unfold project_splats
    by_cases hi : i < 1
    · rw [if_pos hi, if_pos hi]
      unfold projectSplat
      rw [if_pos (by norm_num [camZ, cxCam, behindSplat3, idView])]
      rfl
    · rw [if_neg hi, if_neg hi]
  rw [hproj]
  have hdep : (List.range 1).map
      (fun i => (if i < 1 then culledResidual else residual2D).depth) = [SENTINEL] := by
    rfl
  rw [hdep, sort_splats_scratch_eq]
  have hperm : sort_splats [SENTINEL] = [0] := by
    rw [sort_splats_eq_keys [SENTINEL] (fun _ => 0)
      (fun i hi => by
        have hi0 : i = 0 := by simp at hi; omega
        subst hi0
        norm_num [quantKeys, CULL_DEPTH, SENTINEL])]
    decide
  rw [hperm]
  decide
